import Mathlib

/-!
Verification of the AVL tree engine in `visualizer.js` of the dsaProject
repository.  The engine maintains a self-balancing binary search tree and
records a structured trace of events (visit / create / delete / replace /
rotate) during each mutating operation.

The embedding below mirrors the `TreeNode` / `AVLTree` classes: nodes carry
an id (from a monotonically increasing counter), a value, stored height and
balance fields, and two children.  Mutating methods are modelled as pure
functions threading the id counter and returning the trace they append.
-/

namespace AVLViz

/-- A tree node (`TreeNode` in the source) or the absent tree (`null`).
Fields in node order: `id`, `value`, stored `height`, stored `balance`,
`left`, `right`. -/
inductive Tree where
  | leaf : Tree
  | node (id : Nat) (value : Int) (height : Nat) (balance : Int)
      (left right : Tree) : Tree
deriving DecidableEq, Repr

/-- The four rotation kinds recorded in `rotate` events. -/
inductive RotKind where
  | LL | LR | RR | RL
deriving DecidableEq, Repr

/-- One trace event, as pushed onto `path` by `_insert` / `_delete` /
`_rebalance`.  Node references are recorded by their immutable `id` and
`value` fields. -/
inductive Event where
  | visit (id : Nat) (value : Int)
  | create (id : Nat) (value : Int)
  | delete (id : Nat) (value : Int)
  | replace (oldId : Nat) (oldValue : Int) (newId : Nat) (newValue : Int)
  | rotate (kind : RotKind) (pivotId : Nat) (pivotValue : Int)
deriving DecidableEq, Repr

/-- `_height(node)`: 0 for an absent tree, else the stored height field. -/
def heightOf : Tree → Nat
  | .leaf => 0
  | .node _ _ h _ _ _ => h

/-- `getBalance(node)`: difference of the children's stored heights,
0 for an absent tree. -/
def getBalance : Tree → Int
  | .leaf => 0
  | .node _ _ _ _ l r => (heightOf l : Int) - heightOf r

/-- The value stored at the root (0 for the absent tree, which the source
never dereferences). -/
def rootValue : Tree → Int
  | .leaf => 0
  | .node _ v _ _ _ _ => v

/-- The id stored at the root (0 for the absent tree). -/
def rootId : Tree → Nat
  | .leaf => 0
  | .node i _ _ _ _ _ => i

/-- `_max(node)`: follow right children to the maximum node. -/
def maxNode : Tree → Tree
  | .leaf => .leaf
  | .node i v h b l .leaf => .node i v h b l .leaf
  | .node _ _ _ _ _ (.node i v h b l r) => maxNode (.node i v h b l r)

/-- `_rightRotate(y)`: pivot the left child `x` above `y`, reattaching the
inner grandchild; heights then balances are recomputed for the old root
first and the new root second, from the stored child heights.  The source
assumes a non-absent left child; other shapes are returned unchanged. -/
def rightRotate : Tree → Tree
  | .node yid yv _ _ (.node xid xv _ _ a t2) r =>
      Tree.node xid xv
        (max (heightOf a) (max (heightOf t2) (heightOf r) + 1) + 1)
        ((heightOf a : Int) - (max (heightOf t2) (heightOf r) + 1))
        a
        (Tree.node yid yv (max (heightOf t2) (heightOf r) + 1)
          ((heightOf t2 : Int) - heightOf r) t2 r)
  | t => t

/-- `_leftRotate(x)`: mirror image of `_rightRotate`. -/
def leftRotate : Tree → Tree
  | .node xid xv _ _ l (.node yid yv _ _ t2 b) =>
      Tree.node yid yv
        (max (max (heightOf l) (heightOf t2) + 1) (heightOf b) + 1)
        (((max (heightOf l) (heightOf t2) + 1 : Nat) : Int) - heightOf b)
        (Tree.node xid xv (max (heightOf l) (heightOf t2) + 1)
          ((heightOf l : Int) - heightOf t2) l t2)
        b
  | t => t

/-- `_rebalance(node, path)`: the four-way rotation case analysis on the
stored balance factor, emitting one `rotate` event per executed case.
Returns the new subtree root together with the appended events. -/
def rebalance : Tree → Tree × List Event
  | .leaf => (.leaf, [])
  | .node id v h b l r =>
      if 1 < b then
        if 0 ≤ getBalance l then
          (rightRotate (.node id v h b l r), [.rotate .LL id v])
        else
          (rightRotate (.node id v h b (leftRotate l) r), [.rotate .LR id v])
      else if b < -1 then
        if getBalance r ≤ 0 then
          (leftRotate (.node id v h b l r), [.rotate .RR id v])
        else
          (leftRotate (.node id v h b l (rightRotate r)), [.rotate .RL id v])
      else (.node id v h b l r, [])

/-- `_insert(node, value, path)`: recursive insertion threading the global
id counter; returns the new subtree, the new counter, and the events
appended to `path` by this call (in push order). -/
def insertAux : Tree → Int → Nat → Tree × Nat × List Event
  | .leaf, v, ctr =>
      (.node (ctr + 1) v 1 0 .leaf .leaf, ctr + 1, [.create (ctr + 1) v])
  | .node id nv h b l r, v, ctr =>
      if v < nv then
        let res := insertAux l v ctr
        let rb := rebalance (.node id nv
          (1 + max (heightOf res.1) (heightOf r))
          ((heightOf res.1 : Int) - heightOf r) res.1 r)
        (rb.1, res.2.1, .visit id nv :: res.2.2 ++ rb.2)
      else if nv < v then
        let res := insertAux r v ctr
        let rb := rebalance (.node id nv
          (1 + max (heightOf l) (heightOf res.1))
          ((heightOf l : Int) - heightOf res.1) l res.1)
        (rb.1, res.2.1, .visit id nv :: res.2.2 ++ rb.2)
      else
        (.node id nv h b l r, ctr, [.visit id nv])

/-- `_delete(node, value, path)`: recursive deletion.  On the target node a
`delete` event is emitted; with two children a freshly-identitied node
carrying the in-order predecessor's value is allocated, the predecessor is
recursively deleted from the reattached left subtree (appending its events
in-line), and a `replace` event is emitted. -/
def deleteAux : Tree → Int → Nat → Tree × Nat × List Event
  | .leaf, _, ctr => (.leaf, ctr, [])
  | .node id nv h b l r, v, ctr =>
      if v < nv then
        let res := deleteAux l v ctr
        let rb := rebalance (.node id nv
          (1 + max (heightOf res.1) (heightOf r))
          ((heightOf res.1 : Int) - heightOf r) res.1 r)
        (rb.1, res.2.1, .visit id nv :: res.2.2 ++ rb.2)
      else if nv < v then
        let res := deleteAux r v ctr
        let rb := rebalance (.node id nv
          (1 + max (heightOf l) (heightOf res.1))
          ((heightOf l : Int) - heightOf res.1) l res.1)
        (rb.1, res.2.1, .visit id nv :: res.2.2 ++ rb.2)
      else
        match l, r with
        | .leaf, _ => (r, ctr, [.visit id nv, .delete id nv])
        | .node li lv lh lb ll lr, .leaf =>
            (.node li lv lh lb ll lr, ctr, [.visit id nv, .delete id nv])
        | .node li lv lh lb ll lr, .node ri rv rh2 rb2 rl rr =>
            let l0 := Tree.node li lv lh lb ll lr
            let r0 := Tree.node ri rv rh2 rb2 rl rr
            let pv := rootValue (maxNode l0)
            let res := deleteAux l0 pv (ctr + 1)
            let rb := rebalance (.node (ctr + 1) pv
              (1 + max (heightOf res.1) (heightOf r0))
              ((heightOf res.1 : Int) - heightOf r0) res.1 r0)
            (rb.1, res.2.1,
              .visit id nv :: .delete id nv :: res.2.2
                ++ [.replace id nv (ctr + 1) pv] ++ rb.2)

/-- `updateHeightsAndBalances(node)`: recompute every stored height and
balance bottom-up; returns the rebuilt tree and its height. -/
def updateHB : Tree → Tree × Nat
  | .leaf => (.leaf, 0)
  | .node id v _ _ l r =>
      let lres := updateHB l
      let rres := updateHB r
      (.node id v (1 + max lres.2 rres.2) ((lres.2 : Int) - rres.2)
        lres.1 rres.1,
       1 + max lres.2 rres.2)

/-- The `AVLTree` object state: the root together with the global
`nodeIdCounter`. -/
structure AVLTree where
  root : Tree
  ctr : Nat
deriving DecidableEq, Repr

/-- The freshly constructed tree (`new AVLTree()` with counter 0). -/
def emptyAVL : AVLTree := ⟨.leaf, 0⟩

/-- Public `insert(value)`: run `_insert` from the root, then
`updateHeightsAndBalances`; returns the new state and the trace. -/
def AVLTree.insert (a : AVLTree) (v : Int) : AVLTree × List Event :=
  let res := insertAux a.root v a.ctr
  (⟨(updateHB res.1).1, res.2.1⟩, res.2.2)

/-- Public `delete(value)`: run `_delete` from the root, then
`updateHeightsAndBalances` when the root is non-absent. -/
def AVLTree.delete (a : AVLTree) (v : Int) : AVLTree × List Event :=
  let res := deleteAux a.root v a.ctr
  (⟨match res.1 with
    | .leaf => .leaf
    | .node id v2 h b l r => (updateHB (.node id v2 h b l r)).1,
    res.2.1⟩, res.2.2)

/-- Public `find(value)`: plain binary search returning the matching node,
or `none`; no trace, no mutation. -/
def findNode : Tree → Int → Option Tree
  | .leaf, _ => none
  | .node id nv h b l r, v =>
      if v = nv then some (.node id nv h b l r)
      else if v < nv then findNode l v
      else findNode r v

/-- `isBalanced(node)`: recursively check that the computed balance factor
of every reachable node has absolute value at most 1. -/
def isBalanced : Tree → Bool
  | .leaf => true
  | .node _ _ _ _ l r =>
      if 1 < ((heightOf l : Int) - heightOf r).natAbs then false
      else isBalanced l && isBalanced r

/-- `inOrderTraversal`: the in-order sequence of values (`printInOrder`). -/
def inorder : Tree → List Int
  | .leaf => []
  | .node _ v _ _ l r => inorder l ++ v :: inorder r

/-- In-order sequence of (id, value) pairs, identifying the nodes. -/
def inorderNodes : Tree → List (Nat × Int)
  | .leaf => []
  | .node id v _ _ l r => inorderNodes l ++ (id, v) :: inorderNodes r

/-- All node ids in the tree, in in-order. -/
def idsOf : Tree → List Nat
  | .leaf => []
  | .node id _ _ _ l r => idsOf l ++ id :: idsOf r

/-- One user-level operation on the tree. -/
inductive Op where
  | ins (v : Int)
  | del (v : Int)
deriving DecidableEq, Repr

/-- Apply one operation, discarding the trace. -/
def runOp (a : AVLTree) : Op → AVLTree
  | .ins v => (a.insert v).1
  | .del v => (a.delete v).1

/-- Run a sequence of operations from the empty tree. -/
def runOps (ops : List Op) : AVLTree := ops.foldl runOp emptyAVL

/-- Event classifiers. -/
def isRotEv : Event → Bool
  | .rotate _ _ _ => true
  | _ => false

def isDelEv : Event → Bool
  | .delete _ _ => true
  | _ => false

def isVisitEv : Event → Bool
  | .visit _ _ => true
  | _ => false

def isReplEv : Event → Bool
  | .replace _ _ _ _ => true
  | _ => false

/-- Number of `rotate` events in a trace. -/
def countRot (es : List Event) : Nat := es.countP isRotEv

/-- Number of `delete` events in a trace. -/
def countDel (es : List Event) : Nat := es.countP isDelEv

/-- Number of `replace` events in a trace. -/
def countRepl (es : List Event) : Nat := es.countP isReplEv

/-- A trace consisting solely of `visit` events. -/
def AllVisits (es : List Event) : Prop := ∀ e ∈ es, isVisitEv e = true

instance : DecidablePred AllVisits := fun es =>
  decidable_of_iff (∀ e ∈ es, isVisitEv e = true) Iff.rfl

/-! ## Invariants -/

/-- The height of a tree as determined by its shape alone. -/
def realHeight : Tree → Nat
  | .leaf => 0
  | .node _ _ _ _ l r => 1 + max (realHeight l) (realHeight r)

/-- The balance factor determined by the shape: real height of the left
subtree minus real height of the right subtree. -/
def rootBal : Tree → Int
  | .leaf => 0
  | .node _ _ _ _ l r => (realHeight l : Int) - realHeight r

/-- Every stored `height` and `balance` field agrees with the value
recomputed from the shape. -/
def fieldsOK : Tree → Prop
  | .leaf => True
  | .node _ _ h b l r =>
      h = 1 + max (realHeight l) (realHeight r) ∧
      b = (realHeight l : Int) - realHeight r ∧
      fieldsOK l ∧ fieldsOK r

/-- The AVL shape invariant: children's real heights differ by at most one,
everywhere. -/
def avlOK : Tree → Prop
  | .leaf => True
  | .node _ _ _ _ l r =>
      realHeight l ≤ realHeight r + 1 ∧ realHeight r ≤ realHeight l + 1 ∧
      avlOK l ∧ avlOK r

/-- Every stored height field equals one plus the maximum of the children's
stored height fields (absent children counting as 0). -/
def storedHeightsOK : Tree → Prop
  | .leaf => True
  | .node _ _ h _ l r =>
      h = 1 + max (heightOf l) (heightOf r) ∧
      storedHeightsOK l ∧ storedHeightsOK r

def decFieldsOK : (t : Tree) → Decidable (fieldsOK t)
  | .leaf => .isTrue trivial
  | .node _ _ h b l r =>
      have dl := decFieldsOK l
      have dr := decFieldsOK r
      decidable_of_iff
        (h = 1 + max (realHeight l) (realHeight r) ∧
          b = (realHeight l : Int) - realHeight r ∧
          fieldsOK l ∧ fieldsOK r) (by simp [fieldsOK])

instance : DecidablePred fieldsOK := decFieldsOK

def decAvlOK : (t : Tree) → Decidable (avlOK t)
  | .leaf => .isTrue trivial
  | .node _ _ _ _ l r =>
      have dl := decAvlOK l
      have dr := decAvlOK r
      decidable_of_iff
        (realHeight l ≤ realHeight r + 1 ∧ realHeight r ≤ realHeight l + 1 ∧
          avlOK l ∧ avlOK r) (by simp [avlOK])

instance : DecidablePred avlOK := decAvlOK

/-- The full invariant of a reachable `AVLTree` state: correct stored
fields, AVL-balanced shape, and strictly increasing in-order sequence. -/
def Inv (a : AVLTree) : Prop :=
  fieldsOK a.root ∧ avlOK a.root ∧
  (inorder a.root).Pairwise (fun x y => x < y)

instance : DecidablePred Inv := fun a =>
  decidable_of_iff (fieldsOK a.root ∧ avlOK a.root ∧
    (inorder a.root).Pairwise (fun x y => x < y)) Iff.rfl

/-! ## Specification-side list operations -/

/-- Insert a value into a sorted list, keeping it sorted and dropping
duplicates (the list-level shadow of `insert`). -/
def insList (v : Int) : List Int → List Int
  | [] => [v]
  | x :: xs =>
      if v < x then v :: x :: xs
      else if x < v then x :: insList v xs
      else x :: xs

/-- List-level shadow of one operation on the sorted value sequence. -/
def stepList (xs : List Int) : Op → List Int
  | .ins v => insList v xs
  | .del v => xs.erase v

/-- Result of shadowing a whole operation sequence, starting empty. -/
def modelList (ops : List Op) : List Int := ops.foldl stepList []

/-- One step of the present-value automaton for a fixed value `v`. -/
def presentStep (v : Int) (s : Bool) : Op → Bool
  | .ins w => if w = v then true else s
  | .del w => if w = v then false else s

/-- Whether `v` has been inserted and not subsequently deleted. -/
def presentIn (ops : List Op) (v : Int) : Bool :=
  ops.foldl (presentStep v) false

/-- The left child of the root. -/
def leftOf : Tree → Tree
  | .leaf => .leaf
  | .node _ _ _ _ l _ => l

/-- The scenario operations from the spec: build from 20, 10, 30, 5, 15. -/
def t5ops : List Op := [.ins 20, .ins 10, .ins 30, .ins 5, .ins 15]

/-- The scenario tree. -/
def t5 : AVLTree := runOps t5ops

/-! ## Induction packages -/

/-- Everything the unwinding steps need to know about one `_rebalance`
call on a node whose fields were just recomputed. -/
structure RebOut (id : Nat) (v : Int) (h : Nat) (b : Int) (l r : Tree)
    (res : Tree × List Event) : Prop where
  hf : fieldsOK res.1
  ha : avlOK res.1
  hio : inorder res.1 = inorder l ++ v :: inorder r
  hge : h ≤ realHeight res.1 + 1
  hle : realHeight res.1 ≤ h
  hsmall : -1 ≤ b → b ≤ 1 → res = (.node id v h b l r, [])
  hrots : res.2 = [] ∨ ∃ k, res.2 = [Event.rotate k id v]
  hbigL : b = 2 → rootBal l ≠ 0 → realHeight res.1 + 1 = h
  hbigR : b = -2 → rootBal r ≠ 0 → realHeight res.1 + 1 = h
  hnilEq : res.2 = [] → res.1 = .node id v h b l r

/-- Everything maintained about one `_insert` call on a tree satisfying the
invariants: fields and AVL shape restored, in-order sequence extended by a
sorted insertion, height grows by at most one, at most one rotation is
recorded (and any rotation restores the pre-insert height), growth leaves a
non-zero root balance, and inserting a present value is the identity with a
visits-only trace. -/
structure InsProps (t : Tree) (ctr : Nat) (v : Int)
    (res : Tree × Nat × List Event) : Prop where
  hf : fieldsOK res.1
  ha : avlOK res.1
  hio : inorder res.1 = insList v (inorder t)
  hge : realHeight t ≤ realHeight res.1
  hle : realHeight res.1 ≤ realHeight t + 1
  hrle : countRot res.2.2 ≤ 1
  hr1 : countRot res.2.2 = 1 → realHeight res.1 = realHeight t
  hbal : t ≠ .leaf → realHeight res.1 = realHeight t + 1 → rootBal res.1 ≠ 0
  hdup : v ∈ inorder t → res.1 = t ∧ res.2.1 = ctr ∧ AllVisits res.2.2

/-- Everything maintained about one `_delete` call on a tree satisfying the
invariants: fields and AVL shape restored, in-order sequence loses the
target value, height shrinks by at most one, deleting an absent value is
the identity with a visits-only trace, and at most two `delete` events are
recorded. -/
structure DelProps (t : Tree) (ctr : Nat) (v : Int)
    (res : Tree × Nat × List Event) : Prop where
  hf : fieldsOK res.1
  ha : avlOK res.1
  hio : inorder res.1 = (inorder t).erase v
  hge : realHeight t ≤ realHeight res.1 + 1
  hle : realHeight res.1 ≤ realHeight t
  habs : v ∉ inorder t → res.1 = t ∧ res.2.1 = ctr ∧ AllVisits res.2.2
  hdel : countDel res.2.2 ≤ 2

/-! ## Basic lemmas -/

theorem heightOf_eq_realHeight {t : Tree} (hf : fieldsOK t) :
    heightOf t = realHeight t := by
  cases t with
  | leaf => rfl
  | node id v h b l r => exact hf.1

theorem fieldsOK_imp_storedHeightsOK {t : Tree} (hf : fieldsOK t) :
    storedHeightsOK t := by
  induction t with
  | leaf => trivial
  | node id v h b l r ihl ihr =>
      refine ⟨?_, ihl hf.2.2.1, ihr hf.2.2.2⟩
      rw [heightOf_eq_realHeight hf.2.2.1, heightOf_eq_realHeight hf.2.2.2]
      exact hf.1

theorem isBalanced_of_ok {t : Tree} (hf : fieldsOK t) (ha : avlOK t) :
    isBalanced t = true := by
  induction t with
  | leaf => rfl
  | node id v h b l r ihl ihr =>
      simp only [isBalanced]
      rw [heightOf_eq_realHeight hf.2.2.1, heightOf_eq_realHeight hf.2.2.2]
      have h1 := ha.1
      have h2 := ha.2.1
      have : ¬ 1 < ((realHeight l : Int) - realHeight r).natAbs := by omega
      simp [this, ihl hf.2.2.1 ha.2.2.1, ihr hf.2.2.2 ha.2.2.2]

theorem heightOf_node (id : Nat) (v : Int) (h : Nat) (b : Int) (l r : Tree) :
    heightOf (.node id v h b l r) = h := rfl

theorem realHeight_node (id : Nat) (v : Int) (h : Nat) (b : Int) (l r : Tree) :
    realHeight (.node id v h b l r) = 1 + max (realHeight l) (realHeight r) :=
  rfl

theorem inorder_node (id : Nat) (v : Int) (h : Nat) (b : Int) (l r : Tree) :
    inorder (.node id v h b l r) = inorder l ++ v :: inorder r := rfl

theorem rootBal_node (id : Nat) (v : Int) (h : Nat) (b : Int) (l r : Tree) :
    rootBal (.node id v h b l r) = (realHeight l : Int) - realHeight r := rfl

/-! ## The rebalance lemma -/

theorem rebalance_ok (id : Nat) (v : Int) (h : Nat) (b : Int) (l r : Tree)
    (hfl : fieldsOK l) (hfr : fieldsOK r) (hal : avlOK l) (har : avlOK r)
    (hh : h = 1 + max (realHeight l) (realHeight r))
    (hb : b = (realHeight l : Int) - realHeight r)
    (hlo : -2 <= b) (hhi : b <= 2) :
    RebOut id v h b l r (rebalance (.node id v h b l r)) := by
  have e3 : heightOf r = realHeight r := heightOf_eq_realHeight hfr
  by_cases h1 : 1 < b
  · have hlr : realHeight l = realHeight r + 2 := by omega
    cases l with
    | leaf => exact absurd hlr (by simp [realHeight])
    | node li lv lh lb la lt2 =>
      obtain ⟨hlh, hlb, hfa, hft2⟩ := hfl
      obtain ⟨ha1, ha2, haa, hat2⟩ := hal
      have e1 : heightOf la = realHeight la := heightOf_eq_realHeight hfa
      rw [realHeight_node] at hlr hh
      by_cases hgb : 0 <= getBalance (Tree.node li lv lh lb la lt2)
      · -- LL: single right rotation
        have e2 : heightOf lt2 = realHeight lt2 := heightOf_eq_realHeight hft2
        have hgb2 : realHeight lt2 <= realHeight la := by
          simp only [getBalance, e1, e2] at hgb; omega
        have hres : rebalance (.node id v h b (.node li lv lh lb la lt2) r) =
            (rightRotate (.node id v h b (.node li lv lh lb la lt2) r),
              [.rotate .LL id v]) := by
          simp only [rebalance]; rw [if_pos h1, if_pos hgb]
        rw [hres]
        simp only [rightRotate, heightOf_node, e1, e2, e3]
        refine ⟨⟨?_, ?_, hfa, ?_, ?_, hft2, hfr⟩,
          ⟨?_, ?_, haa, ?_, ?_, hat2, har⟩, ?_, ?_, ?_, ?_, ?_, ?_, ?_, ?_⟩
        · first | omega | (simp only [realHeight_node]; omega) | (simp only [realHeight_node] at hh hb ⊢; omega)
        · first | omega | (simp only [realHeight_node]; omega) | (simp only [realHeight_node] at hh hb ⊢; omega)
        · first | omega | (simp only [realHeight_node]; omega) | (simp only [realHeight_node] at hh hb ⊢; omega)
        · first | omega | (simp only [realHeight_node]; omega) | (simp only [realHeight_node] at hh hb ⊢; omega)
        · first | omega | (simp only [realHeight_node]; omega) | (simp only [realHeight_node] at hh hb ⊢; omega)
        · first | omega | (simp only [realHeight_node]; omega) | (simp only [realHeight_node] at hh hb ⊢; omega)
        · first | omega | (simp only [realHeight_node]; omega) | (simp only [realHeight_node] at hh hb ⊢; omega)
        · first | omega | (simp only [realHeight_node]; omega) | (simp only [realHeight_node] at hh hb ⊢; omega)
        · simp [inorder, List.append_assoc]
        · first | omega | (simp only [realHeight_node]; omega) | (simp only [realHeight_node] at hh hb ⊢; omega)
        · first | omega | (simp only [realHeight_node]; omega) | (simp only [realHeight_node] at hh hb ⊢; omega)
        · intro hc1 hc2; omega
        · exact Or.inr ⟨.LL, rfl⟩
        · intro hc hnz
          rw [rootBal_node] at hnz
          first | omega | (simp only [realHeight_node]; omega) | (simp only [realHeight_node] at hh hb ⊢; omega)
        · intro hc; omega
        · intro hc; simp at hc
      · -- LR: left-rotate the left child, then right-rotate the node
        have hgb2 : realHeight la < realHeight lt2 := by
          have e2 : heightOf lt2 = realHeight lt2 := heightOf_eq_realHeight hft2
          simp only [getBalance, e1, e2, not_le] at hgb
          omega
        have ht2pos : 0 < realHeight lt2 := by omega
        cases lt2 with
        | leaf => exact absurd ht2pos (by simp [realHeight])
        | node ti tv th tb tp tq =>
          obtain ⟨hth, htb, hftp, hftq⟩ := hft2
          obtain ⟨hata, hatb, hatp, hatq⟩ := hat2
          have e4 : heightOf tp = realHeight tp := heightOf_eq_realHeight hftp
          have e5 : heightOf tq = realHeight tq := heightOf_eq_realHeight hftq
          rw [realHeight_node] at hlr hh hgb2 ha1 ha2
          have hres : rebalance (.node id v h b
              (.node li lv lh lb la (.node ti tv th tb tp tq)) r) =
              (rightRotate (.node id v h b
                (leftRotate (.node li lv lh lb la (.node ti tv th tb tp tq)))
                r), [.rotate .LR id v]) := by
            simp only [rebalance]; rw [if_pos h1, if_neg hgb]
          rw [hres]
          simp only [leftRotate, rightRotate, heightOf_node, e1, e3, e4, e5]
          refine ⟨⟨?_, ?_, ⟨?_, ?_, hfa, hftp⟩, ?_, ?_, hftq, hfr⟩,
            ⟨?_, ?_, ⟨?_, ?_, haa, hatp⟩, ?_, ?_, hatq, har⟩,
            ?_, ?_, ?_, ?_, ?_, ?_, ?_, ?_⟩
          · first | omega | (simp only [realHeight_node]; omega) | (simp only [realHeight_node] at hh hb ⊢; omega)
          · first | omega | (simp only [realHeight_node]; omega) | (simp only [realHeight_node] at hh hb ⊢; omega)
          · first | omega | (simp only [realHeight_node]; omega) | (simp only [realHeight_node] at hh hb ⊢; omega)
          · first | omega | (simp only [realHeight_node]; omega) | (simp only [realHeight_node] at hh hb ⊢; omega)
          · first | omega | (simp only [realHeight_node]; omega) | (simp only [realHeight_node] at hh hb ⊢; omega)
          · first | omega | (simp only [realHeight_node]; omega) | (simp only [realHeight_node] at hh hb ⊢; omega)
          · first | omega | (simp only [realHeight_node]; omega) | (simp only [realHeight_node] at hh hb ⊢; omega)
          · first | omega | (simp only [realHeight_node]; omega) | (simp only [realHeight_node] at hh hb ⊢; omega)
          · first | omega | (simp only [realHeight_node]; omega) | (simp only [realHeight_node] at hh hb ⊢; omega)
          · first | omega | (simp only [realHeight_node]; omega) | (simp only [realHeight_node] at hh hb ⊢; omega)
          · first | omega | (simp only [realHeight_node]; omega) | (simp only [realHeight_node] at hh hb ⊢; omega)
          · first | omega | (simp only [realHeight_node]; omega) | (simp only [realHeight_node] at hh hb ⊢; omega)
          · simp [inorder, List.append_assoc]
          · first | omega | (simp only [realHeight_node]; omega) | (simp only [realHeight_node] at hh hb ⊢; omega)
          · first | omega | (simp only [realHeight_node]; omega) | (simp only [realHeight_node] at hh hb ⊢; omega)
          · intro hc1 hc2; omega
          · exact Or.inr ⟨.LR, rfl⟩
          · intro hc hnz
            rw [rootBal_node, realHeight_node] at hnz
            first | omega | (simp only [realHeight_node]; omega) | (simp only [realHeight_node] at hh hb ⊢; omega)
          · intro hc; omega
          · intro hc; simp at hc
  · by_cases h2 : b < -1
    · have hlr : realHeight r = realHeight l + 2 := by omega
      cases r with
      | leaf => exact absurd hlr (by simp [realHeight])
      | node ri rv rh2 rbb rt2 rb3 =>
        obtain ⟨hrh, hrb, hft2, hfb3⟩ := hfr
        obtain ⟨hra1, hra2, hrat2, hrab3⟩ := har
        have e1 : heightOf l = realHeight l := heightOf_eq_realHeight hfl
        have e6 : heightOf rb3 = realHeight rb3 := heightOf_eq_realHeight hfb3
        rw [realHeight_node] at hlr hh
        by_cases hgb : getBalance (Tree.node ri rv rh2 rbb rt2 rb3) <= 0
        · -- RR: single left rotation
          have e2 : heightOf rt2 = realHeight rt2 := heightOf_eq_realHeight hft2
          have hgb2 : realHeight rt2 <= realHeight rb3 := by
            simp only [getBalance, e2, e6] at hgb; omega
          have hres : rebalance (.node id v h b l
              (.node ri rv rh2 rbb rt2 rb3)) =
              (leftRotate (.node id v h b l (.node ri rv rh2 rbb rt2 rb3)),
                [.rotate .RR id v]) := by
            simp only [rebalance]; rw [if_neg h1, if_pos h2, if_pos hgb]
          rw [hres]
          simp only [leftRotate, heightOf_node, e1, e2, e6]
          refine ⟨⟨?_, ?_, ⟨?_, ?_, hfl, hft2⟩, hfb3⟩,
            ⟨?_, ?_, ⟨?_, ?_, hal, hrat2⟩, hrab3⟩, ?_, ?_, ?_, ?_, ?_, ?_, ?_, ?_⟩
          · first | omega | (simp only [realHeight_node]; omega) | (simp only [realHeight_node] at hh hb ⊢; omega)
          · first | omega | (simp only [realHeight_node]; omega) | (simp only [realHeight_node] at hh hb ⊢; omega)
          · first | omega | (simp only [realHeight_node]; omega) | (simp only [realHeight_node] at hh hb ⊢; omega)
          · first | omega | (simp only [realHeight_node]; omega) | (simp only [realHeight_node] at hh hb ⊢; omega)
          · first | omega | (simp only [realHeight_node]; omega) | (simp only [realHeight_node] at hh hb ⊢; omega)
          · first | omega | (simp only [realHeight_node]; omega) | (simp only [realHeight_node] at hh hb ⊢; omega)
          · first | omega | (simp only [realHeight_node]; omega) | (simp only [realHeight_node] at hh hb ⊢; omega)
          · first | omega | (simp only [realHeight_node]; omega) | (simp only [realHeight_node] at hh hb ⊢; omega)
          · simp [inorder, List.append_assoc]
          · first | omega | (simp only [realHeight_node]; omega) | (simp only [realHeight_node] at hh hb ⊢; omega)
          · first | omega | (simp only [realHeight_node]; omega) | (simp only [realHeight_node] at hh hb ⊢; omega)
          · intro hc1 hc2; omega
          · exact Or.inr ⟨.RR, rfl⟩
          · intro hc; omega
          · intro hc hnz
            rw [rootBal_node] at hnz
            first | omega | (simp only [realHeight_node]; omega) | (simp only [realHeight_node] at hh hb ⊢; omega)
          · intro hc; simp at hc
        · -- RL: right-rotate the right child, then left-rotate the node
          have hgb2 : realHeight rb3 < realHeight rt2 := by
            have e2 : heightOf rt2 = realHeight rt2 := heightOf_eq_realHeight hft2
            simp only [getBalance, e2, e6, not_le] at hgb
            omega
          have ht2pos : 0 < realHeight rt2 := by omega
          cases rt2 with
          | leaf => exact absurd ht2pos (by simp [realHeight])
          | node ti tv th tb tp tq =>
            obtain ⟨hth, htb, hftp, hftq⟩ := hft2
            obtain ⟨hata, hatb, hatp, hatq⟩ := hrat2
            have e4 : heightOf tp = realHeight tp := heightOf_eq_realHeight hftp
            have e5 : heightOf tq = realHeight tq := heightOf_eq_realHeight hftq
            rw [realHeight_node] at hlr hh hgb2 hra1 hra2
            have hres : rebalance (.node id v h b l
                (.node ri rv rh2 rbb (.node ti tv th tb tp tq) rb3)) =
                (leftRotate (.node id v h b l
                  (rightRotate
                    (.node ri rv rh2 rbb (.node ti tv th tb tp tq) rb3))),
                  [.rotate .RL id v]) := by
              simp only [rebalance]; rw [if_neg h1, if_pos h2, if_neg hgb]
            rw [hres]
            simp only [rightRotate, leftRotate, heightOf_node, e1, e4, e5, e6]
            refine ⟨⟨?_, ?_, ⟨?_, ?_, hfl, hftp⟩, ?_, ?_, hftq, hfb3⟩,
              ⟨?_, ?_, ⟨?_, ?_, hal, hatp⟩, ?_, ?_, hatq, hrab3⟩,
              ?_, ?_, ?_, ?_, ?_, ?_, ?_, ?_⟩
            · first | omega | (simp only [realHeight_node]; omega) | (simp only [realHeight_node] at hh hb ⊢; omega)
            · first | omega | (simp only [realHeight_node]; omega) | (simp only [realHeight_node] at hh hb ⊢; omega)
            · first | omega | (simp only [realHeight_node]; omega) | (simp only [realHeight_node] at hh hb ⊢; omega)
            · first | omega | (simp only [realHeight_node]; omega) | (simp only [realHeight_node] at hh hb ⊢; omega)
            · first | omega | (simp only [realHeight_node]; omega) | (simp only [realHeight_node] at hh hb ⊢; omega)
            · first | omega | (simp only [realHeight_node]; omega) | (simp only [realHeight_node] at hh hb ⊢; omega)
            · first | omega | (simp only [realHeight_node]; omega) | (simp only [realHeight_node] at hh hb ⊢; omega)
            · first | omega | (simp only [realHeight_node]; omega) | (simp only [realHeight_node] at hh hb ⊢; omega)
            · first | omega | (simp only [realHeight_node]; omega) | (simp only [realHeight_node] at hh hb ⊢; omega)
            · first | omega | (simp only [realHeight_node]; omega) | (simp only [realHeight_node] at hh hb ⊢; omega)
            · first | omega | (simp only [realHeight_node]; omega) | (simp only [realHeight_node] at hh hb ⊢; omega)
            · first | omega | (simp only [realHeight_node]; omega) | (simp only [realHeight_node] at hh hb ⊢; omega)
            · simp [inorder, List.append_assoc]
            · first | omega | (simp only [realHeight_node]; omega) | (simp only [realHeight_node] at hh hb ⊢; omega)
            · first | omega | (simp only [realHeight_node]; omega) | (simp only [realHeight_node] at hh hb ⊢; omega)
            · intro hc1 hc2; omega
            · exact Or.inr ⟨.RL, rfl⟩
            · intro hc; omega
            · intro hc hnz
              rw [rootBal_node, realHeight_node] at hnz
              first | omega | (simp only [realHeight_node]; omega) | (simp only [realHeight_node] at hh hb ⊢; omega)
            · intro hc; simp at hc
    · -- no rotation
      have hres : rebalance (.node id v h b l r) = (.node id v h b l r, []) := by
        simp only [rebalance]; rw [if_neg h1, if_neg h2]
      rw [hres]
      refine ⟨⟨hh, hb, hfl, hfr⟩, ⟨by omega, by omega, hal, har⟩,
        by simp [inorder], ?_, ?_, fun _ _ => rfl, Or.inl rfl,
        by intro hc; omega, by intro hc; omega, fun _ => rfl⟩
      · first | omega | (simp only [realHeight_node]; omega) | (simp only [realHeight_node] at hh hb ⊢; omega)
      · first | omega | (simp only [realHeight_node]; omega) | (simp only [realHeight_node] at hh hb ⊢; omega)

/-! ## Sorted-list helpers -/

theorem mem_insList (a v : Int) (xs : List Int) :
    a ∈ insList v xs ↔ a = v ∨ a ∈ xs := by
  induction xs with
  | nil => simp [insList]
  | cons x xs ih =>
      by_cases h1 : v < x
      · simp only [insList, if_pos h1, List.mem_cons] <;> tauto
      · by_cases h2 : x < v
        · simp only [insList, if_neg h1, if_pos h2, List.mem_cons, ih] <;>
            tauto
        · have hxv : x = v := by omega
          subst hxv
          simp only [insList, if_neg h1, if_neg h2, List.mem_cons] <;> tauto

theorem sorted_insList (v : Int) (xs : List Int)
    (h : xs.Pairwise (fun a b => a < b)) :
    (insList v xs).Pairwise (fun a b => a < b) := by
  induction xs with
  | nil => simp [insList]
  | cons x xs ih =>
      obtain ⟨hx, hxs⟩ := List.pairwise_cons.mp h
      by_cases h1 : v < x
      · simp only [insList, if_pos h1]
        refine List.pairwise_cons.mpr ⟨?_, h⟩
        intro b hb
        rcases List.mem_cons.mp hb with hb | hb
        · omega
        · have := hx b hb; omega
      · by_cases h2 : x < v
        · simp only [insList, if_neg h1, if_pos h2]
          refine List.pairwise_cons.mpr ⟨?_, ih hxs⟩
          intro b hb
          rcases (mem_insList b v xs).mp hb with hb | hb
          · omega
          · exact hx b hb
        · simp only [insList, if_neg h1, if_neg h2]
          exact h

theorem insList_append_lt (v nv : Int) (il ir : List Int) (h : v < nv) :
    insList v (il ++ nv :: ir) = insList v il ++ nv :: ir := by
  induction il with
  | nil => simp [insList, h]
  | cons x xs ih =>
      by_cases h1 : v < x
      · simp [insList, h1]
      · by_cases h2 : x < v
        · simp only [List.cons_append, insList, if_neg h1, if_pos h2,
            List.append_eq, ih]
        · simp only [List.cons_append, insList, if_neg h1, if_neg h2,
            List.append_eq]

theorem insList_append_gt (v nv : Int) (il ir : List Int) (h : nv < v)
    (hall : ∀ x ∈ il, x < v) :
    insList v (il ++ nv :: ir) = il ++ nv :: insList v ir := by
  induction il with
  | nil =>
      simp only [List.nil_append, insList]
      rw [if_neg (by omega), if_pos h]
  | cons x xs ih =>
      have hx : x < v := hall x (by simp)
      simp only [List.cons_append, insList, List.append_eq]
      rw [if_neg (by omega), if_pos hx,
        ih (fun y hy => hall y (List.mem_cons_of_mem x hy))]

theorem insList_append_eq (v : Int) (il ir : List Int)
    (hall : ∀ x ∈ il, x < v) :
    insList v (il ++ v :: ir) = il ++ v :: ir := by
  induction il with
  | nil =>
      simp only [List.nil_append, insList]
      rw [if_neg (by omega), if_neg (by omega)]
  | cons x xs ih =>
      have hx : x < v := hall x (by simp)
      simp only [List.cons_append, insList, List.append_eq]
      rw [if_neg (by omega), if_pos hx,
        ih (fun y hy => hall y (List.mem_cons_of_mem x hy))]

theorem erase_append_not_right (v : Int) (l1 l2 : List Int) (h : v ∉ l2) :
    (l1 ++ l2).erase v = l1.erase v ++ l2 := by
  by_cases hm : v ∈ l1
  · exact List.erase_append_left l2 hm
  · rw [List.erase_append_right l2 hm, List.erase_of_not_mem h,
      List.erase_of_not_mem hm]

/-- Decompose the sortedness of the in-order sequence of a node. -/
theorem pairwise_split (nv : Int) (il ir : List Int)
    (h : (il ++ nv :: ir).Pairwise (fun a b => a < b)) :
    il.Pairwise (fun a b => a < b) ∧ ir.Pairwise (fun a b => a < b) ∧
    (∀ x ∈ il, x < nv) ∧ (∀ y ∈ ir, nv < y) := by
  rw [List.pairwise_append] at h
  obtain ⟨h1, h2, h3⟩ := h
  rw [List.pairwise_cons] at h2
  exact ⟨h1, h2.2, fun x hx => h3 x hx nv (by simp),
    fun y hy => h2.1 y hy⟩

/-! ## Maximum-node lemmas -/

theorem maxNode_getLast (t : Tree) (ht : t ≠ .leaf) :
    (inorder t).getLast? = some (rootValue (maxNode t)) := by
  induction t with
  | leaf => exact absurd rfl ht
  | node id v h b l r ihl ihr =>
      cases r with
      | leaf =>
          simp only [inorder, maxNode, rootValue]
          exact List.getLast?_concat (inorder l)
      | node ri rv rh2 rbb rl rr =>
          have hr := ihr (by simp)
          simp only [inorder, maxNode, rootValue] at hr ⊢
          rw [List.getLast?_append]
          have hcons : (v :: (inorder rl ++ rv :: inorder rr)) =
              [v] ++ (inorder rl ++ rv :: inorder rr) := rfl
          rw [hcons, List.getLast?_append, hr]
          rfl

theorem maxNode_mem (t : Tree) (ht : t ≠ .leaf) :
    rootValue (maxNode t) ∈ inorder t := by
  have h := maxNode_getLast t ht
  have hne : inorder t ≠ [] := by
    intro hc; rw [hc] at h; exact Option.noConfusion h
  have := List.dropLast_append_getLast hne
  have hlast : (inorder t).getLast hne = rootValue (maxNode t) := by
    rw [List.getLast?_eq_getLast _ hne] at h
    exact Option.some.inj h
  rw [← this, hlast]
  simp

/-! ## Trace-counting helpers -/

theorem isRotEv_visit (i : Nat) (vv : Int) : isRotEv (.visit i vv) = false := rfl

theorem isRotEv_rot (k : RotKind) (i : Nat) (vv : Int) :
    isRotEv (.rotate k i vv) = true := rfl

theorem countRot_visit_cons (i : Nat) (vv : Int) (es : List Event) :
    countRot (.visit i vv :: es) = countRot es := by
  simp [countRot, List.countP_cons, isRotEv]

theorem countRot_append (es1 es2 : List Event) :
    countRot (es1 ++ es2) = countRot es1 + countRot es2 :=
  List.countP_append _ _ _

theorem countDel_append (es1 es2 : List Event) :
    countDel (es1 ++ es2) = countDel es1 + countDel es2 :=
  List.countP_append _ _ _

theorem allVisits_nil : AllVisits ([] : List Event) :=
  fun e he => absurd he (List.not_mem_nil e)

theorem allVisits_cons (i : Nat) (vv : Int) (es : List Event)
    (h : AllVisits es) : AllVisits (.visit i vv :: es) := by
  intro e he
  rcases List.mem_cons.mp he with h1 | h1
  · subst h1; rfl
  · exact h e h1

theorem allVisits_append (es1 es2 : List Event)
    (h1 : AllVisits es1) (h2 : AllVisits es2) : AllVisits (es1 ++ es2) := by
  intro e he
  rcases List.mem_append.mp he with hx | hx
  · exact h1 e hx
  · exact h2 e hx

theorem allVisits_countRot (es : List Event) (h : AllVisits es) :
    countRot es = 0 := by
  rw [countRot, List.countP_eq_zero]
  intro e he
  have hv := h e he
  cases e <;> simp [isVisitEv] at hv <;> simp [isRotEv]

theorem allVisits_countDel (es : List Event) (h : AllVisits es) :
    countDel es = 0 := by
  rw [countDel, List.countP_eq_zero]
  intro e he
  have hv := h e he
  cases e <;> simp [isVisitEv] at hv <;> simp [isDelEv]

/-! ## The insert lemma -/

theorem insStepLeft (id : Nat) (nv v : Int) (h : Nat) (b : Int) (l r : Tree)
    (ctr : Nat) (sub : Tree × Nat × List Event)
    (hv1 : v < nv)
    (hfh : h = 1 + max (realHeight l) (realHeight r))
    (hfb : b = (realHeight l : Int) - realHeight r)
    (hfr : fieldsOK r) (har : avlOK r)
    (hba1 : realHeight l ≤ realHeight r + 1)
    (hba2 : realHeight r ≤ realHeight l + 1)
    (hgtn : ∀ y ∈ inorder r, nv < y)
    (P : InsProps l ctr v sub) :
    InsProps (.node id nv h b l r) ctr v
      ((rebalance (.node id nv (1 + max (heightOf sub.1) (heightOf r))
          ((heightOf sub.1 : Int) - heightOf r) sub.1 r)).1,
       sub.2.1,
       .visit id nv :: (sub.2.2 ++
         (rebalance (.node id nv (1 + max (heightOf sub.1) (heightOf r))
           ((heightOf sub.1 : Int) - heightOf r) sub.1 r)).2)) := by
  have eI : heightOf sub.1 = realHeight sub.1 := heightOf_eq_realHeight P.hf
  have eR : heightOf r = realHeight r := heightOf_eq_realHeight hfr
  rw [eI, eR]
  have hge' := P.hge
  have hle' := P.hle
  have R := rebalance_ok id nv (1 + max (realHeight sub.1) (realHeight r))
      ((realHeight sub.1 : Int) - realHeight r) sub.1 r P.hf hfr P.ha har
      rfl rfl (by omega) (by omega)
  have hRge := R.hge
  have hRle := R.hle
  have hin : v ∈ inorder (Tree.node id nv h b l r) → v ∈ inorder l := by
    intro hm
    rw [inorder_node] at hm
    rcases List.mem_append.mp hm with h1 | h1
    · exact h1
    · rcases List.mem_cons.mp h1 with h2 | h2
      · exact absurd h2 (by omega)
      · exact absurd (hgtn v h2) (by omega)
  rcases R.hrots with hnil | ⟨k, hk⟩
  · have hEq := R.hnilEq hnil
    refine ⟨R.hf, R.ha, ?_, ?_, ?_, ?_, ?_, ?_, ?_⟩
    · rw [R.hio, P.hio, inorder_node, insList_append_lt v nv _ _ hv1]
    · dsimp only; rw [hEq, realHeight_node, realHeight_node]; omega
    · dsimp only; rw [hEq, realHeight_node, realHeight_node]; omega
    · dsimp only
      rw [hnil, List.append_nil, countRot_visit_cons]
      exact P.hrle
    · intro h1
      dsimp only at h1 ⊢
      rw [hnil, List.append_nil, countRot_visit_cons] at h1
      have := P.hr1 h1
      rw [hEq, realHeight_node, realHeight_node]
      omega
    · intro _ hgrow
      dsimp only at hgrow ⊢
      rw [hEq, realHeight_node, realHeight_node] at hgrow
      rw [hEq, rootBal_node]
      omega
    · intro hm
      obtain ⟨h1, h2, h3⟩ := P.hdup (hin hm)
      refine ⟨?_, h2, ?_⟩
      · dsimp only; rw [hEq, h1, hfh, hfb]
      · dsimp only
        rw [hnil, List.append_nil]
        exact allVisits_cons id nv _ h3
  · have hBnot : ¬(-1 ≤ (realHeight sub.1 : Int) - realHeight r ∧
        (realHeight sub.1 : Int) - realHeight r ≤ 1) := by
      intro hsm
      have hcl := R.hsmall hsm.1 hsm.2
      rw [hcl] at hk
      simp at hk
    have hB2 : (realHeight sub.1 : Int) - realHeight r = 2 := by
      rcases not_and_or.mp hBnot with hx | hx <;> omega
    have hst2 : realHeight sub.1 = realHeight r + 2 := by omega
    have hstl : realHeight sub.1 = realHeight l + 1 := by omega
    have hlne : l ≠ Tree.leaf := by
      intro hc
      rw [hc] at hstl
      simp only [realHeight] at hstl
      omega
    have hrb0 : rootBal sub.1 ≠ 0 := P.hbal hlne hstl
    have hres1 := R.hbigL hB2 hrb0
    have hse0 : countRot sub.2.2 = 0 := by
      by_cases hx : countRot sub.2.2 = 1
      · have := P.hr1 hx
        omega
      · have := P.hrle
        omega
    refine ⟨R.hf, R.ha, ?_, ?_, ?_, ?_, ?_, ?_, ?_⟩
    · rw [R.hio, P.hio, inorder_node, insList_append_lt v nv _ _ hv1]
    · dsimp only; rw [realHeight_node]; omega
    · dsimp only; rw [realHeight_node]; omega
    · dsimp only
      rw [hk, countRot_visit_cons, countRot_append, hse0]
      simp [countRot, List.countP_cons, isRotEv]
    · intro h1
      dsimp only at h1 ⊢
      rw [realHeight_node]
      omega
    · intro _ hgrow
      dsimp only at hgrow
      rw [realHeight_node] at hgrow
      omega
    · intro hm
      obtain ⟨h1, _, _⟩ := P.hdup (hin hm)
      rw [h1] at hstl
      omega

theorem insStepRight (id : Nat) (nv v : Int) (h : Nat) (b : Int) (l r : Tree)
    (ctr : Nat) (sub : Tree × Nat × List Event)
    (hv2 : nv < v)
    (hfh : h = 1 + max (realHeight l) (realHeight r))
    (hfb : b = (realHeight l : Int) - realHeight r)
    (hfl : fieldsOK l) (hal : avlOK l)
    (hba1 : realHeight l ≤ realHeight r + 1)
    (hba2 : realHeight r ≤ realHeight l + 1)
    (hltn : ∀ x ∈ inorder l, x < nv)
    (P : InsProps r ctr v sub) :
    InsProps (.node id nv h b l r) ctr v
      ((rebalance (.node id nv (1 + max (heightOf l) (heightOf sub.1))
          ((heightOf l : Int) - heightOf sub.1) l sub.1)).1,
       sub.2.1,
       .visit id nv :: (sub.2.2 ++
         (rebalance (.node id nv (1 + max (heightOf l) (heightOf sub.1))
           ((heightOf l : Int) - heightOf sub.1) l sub.1)).2)) := by
  have eI : heightOf sub.1 = realHeight sub.1 := heightOf_eq_realHeight P.hf
  have eL : heightOf l = realHeight l := heightOf_eq_realHeight hfl
  rw [eI, eL]
  have hge' := P.hge
  have hle' := P.hle
  have R := rebalance_ok id nv (1 + max (realHeight l) (realHeight sub.1))
      ((realHeight l : Int) - realHeight sub.1) l sub.1 hfl P.hf hal P.ha
      rfl rfl (by omega) (by omega)
  have hRge := R.hge
  have hRle := R.hle
  have hall : ∀ x ∈ inorder l, x < v := fun x hx => lt_trans (hltn x hx) hv2
  have hin : v ∈ inorder (Tree.node id nv h b l r) → v ∈ inorder r := by
    intro hm
    rw [inorder_node] at hm
    rcases List.mem_append.mp hm with h1 | h1
    · exact absurd (hltn v h1) (by omega)
    · rcases List.mem_cons.mp h1 with h2 | h2
      · exact absurd h2 (by omega)
      · exact h2
  rcases R.hrots with hnil | ⟨k, hk⟩
  · have hEq := R.hnilEq hnil
    refine ⟨R.hf, R.ha, ?_, ?_, ?_, ?_, ?_, ?_, ?_⟩
    · rw [R.hio, P.hio, inorder_node, insList_append_gt v nv _ _ hv2 hall]
    · dsimp only; rw [hEq, realHeight_node, realHeight_node]; omega
    · dsimp only; rw [hEq, realHeight_node, realHeight_node]; omega
    · dsimp only
      rw [hnil, List.append_nil, countRot_visit_cons]
      exact P.hrle
    · intro h1
      dsimp only at h1 ⊢
      rw [hnil, List.append_nil, countRot_visit_cons] at h1
      have := P.hr1 h1
      rw [hEq, realHeight_node, realHeight_node]
      omega
    · intro _ hgrow
      dsimp only at hgrow ⊢
      rw [hEq, realHeight_node, realHeight_node] at hgrow
      rw [hEq, rootBal_node]
      omega
    · intro hm
      obtain ⟨h1, h2, h3⟩ := P.hdup (hin hm)
      refine ⟨?_, h2, ?_⟩
      · dsimp only; rw [hEq, h1, hfh, hfb]
      · dsimp only
        rw [hnil, List.append_nil]
        exact allVisits_cons id nv _ h3
  · have hBnot : ¬(-1 ≤ (realHeight l : Int) - realHeight sub.1 ∧
        (realHeight l : Int) - realHeight sub.1 ≤ 1) := by
      intro hsm
      have hcl := R.hsmall hsm.1 hsm.2
      rw [hcl] at hk
      simp at hk
    have hB2 : (realHeight l : Int) - realHeight sub.1 = -2 := by
      rcases not_and_or.mp hBnot with hx | hx <;> omega
    have hst2 : realHeight sub.1 = realHeight l + 2 := by omega
    have hstr : realHeight sub.1 = realHeight r + 1 := by omega
    have hrne : r ≠ Tree.leaf := by
      intro hc
      rw [hc] at hstr
      simp only [realHeight] at hstr
      omega
    have hrb0 : rootBal sub.1 ≠ 0 := P.hbal hrne hstr
    have hres1 := R.hbigR hB2 hrb0
    have hse0 : countRot sub.2.2 = 0 := by
      by_cases hx : countRot sub.2.2 = 1
      · have := P.hr1 hx
        omega
      · have := P.hrle
        omega
    refine ⟨R.hf, R.ha, ?_, ?_, ?_, ?_, ?_, ?_, ?_⟩
    · rw [R.hio, P.hio, inorder_node, insList_append_gt v nv _ _ hv2 hall]
    · dsimp only; rw [realHeight_node]; omega
    · dsimp only; rw [realHeight_node]; omega
    · dsimp only
      rw [hk, countRot_visit_cons, countRot_append, hse0]
      simp [countRot, List.countP_cons, isRotEv]
    · intro h1
      dsimp only at h1 ⊢
      rw [realHeight_node]
      omega
    · intro _ hgrow
      dsimp only at hgrow
      rw [realHeight_node] at hgrow
      omega
    · intro hm
      obtain ⟨h1, _, _⟩ := P.hdup (hin hm)
      rw [h1] at hstr
      omega

theorem insertAux_ok (t : Tree) (v : Int) (ctr : Nat)
    (hf : fieldsOK t) (ha : avlOK t)
    (hs : (inorder t).Pairwise (fun a b => a < b)) :
    InsProps t ctr v (insertAux t v ctr) := by
  induction t generalizing ctr with
  | leaf =>
      refine ⟨⟨?_, ?_, trivial, trivial⟩, ⟨?_, ?_, trivial, trivial⟩,
        rfl, ?_, ?_, ?_, ?_, ?_, ?_⟩
      · simp [realHeight]
      · simp [realHeight]
      · simp [realHeight]
      · simp [realHeight]
      · exact Nat.zero_le _
      · simp [realHeight]
      · simp [insertAux, countRot, List.countP_cons, List.countP_nil, isRotEv]
      · intro h1
        simp [insertAux, countRot, List.countP_cons, List.countP_nil,
          isRotEv] at h1
      · exact fun hne _ => absurd rfl hne
      · exact fun hm => absurd hm (List.not_mem_nil v)
  | node id nv h b l r ihl ihr =>
      obtain ⟨hfh, hfb, hfl, hfr⟩ := hf
      obtain ⟨hba1, hba2, hal, har⟩ := ha
      rw [inorder_node] at hs
      obtain ⟨hsl, hsr, hltn, hgtn⟩ := pairwise_split nv _ _ hs
      by_cases hv1 : v < nv
      · simp only [insertAux, if_pos hv1]
        exact insStepLeft id nv v h b l r ctr (insertAux l v ctr) hv1
          hfh hfb hfr har hba1 hba2 hgtn (ihl ctr hfl hal hsl)
      · by_cases hv2 : nv < v
        · simp only [insertAux, if_neg hv1, if_pos hv2]
          exact insStepRight id nv v h b l r ctr (insertAux r v ctr) hv2
            hfh hfb hfl hal hba1 hba2 hltn (ihr ctr hfr har hsr)
        · have hveq : v = nv := by omega
          simp only [insertAux, if_neg hv1, if_neg hv2]
          refine ⟨⟨hfh, hfb, hfl, hfr⟩, ⟨hba1, hba2, hal, har⟩, ?_,
            le_refl _, Nat.le_succ _, ?_, ?_, ?_, ?_⟩
          · rw [hveq, inorder_node]
            exact (insList_append_eq nv _ _ hltn).symm
          · simp [countRot, List.countP_cons, List.countP_nil, isRotEv]
          · intro h1
            simp [countRot, List.countP_cons, List.countP_nil, isRotEv] at h1
          · intro _ hgrow
            dsimp only at hgrow
            omega
          · intro _
            exact ⟨rfl, rfl, allVisits_cons id nv [] allVisits_nil⟩

/-! ## updateHeightsAndBalances on a tree with correct fields -/

theorem updateHB_eq (t : Tree) (hf : fieldsOK t) :
    updateHB t = (t, realHeight t) := by
  induction t with
  | leaf => rfl
  | node id v h b l r ihl ihr =>
      obtain ⟨hfh, hfb, hfl, hfr⟩ := hf
      subst hfh
      subst hfb
      simp only [updateHB, ihl hfl, ihr hfr, realHeight_node]

/-! ## Delete-count helpers -/

theorem countDel_visit_cons (i : Nat) (vv : Int) (es : List Event) :
    countDel (.visit i vv :: es) = countDel es := by
  simp [countDel, List.countP_cons, isDelEv]

theorem countDel_del_cons (i : Nat) (vv : Int) (es : List Event) :
    countDel (.delete i vv :: es) = countDel es + 1 := by
  simp [countDel, List.countP_cons, isDelEv]

theorem rebalance_countDel (t : Tree) : countDel (rebalance t).2 = 0 := by
  cases t with
  | leaf => rfl
  | node id v h b l r =>
      simp only [rebalance]
      split_ifs <;>
        simp [countDel, List.countP_cons, List.countP_nil, isDelEv]

/-! ## Unfolding lemmas for the delete recursion -/

theorem deleteAux_lt (id : Nat) (nv : Int) (h : Nat) (b : Int) (l r : Tree)
    (v : Int) (ctr : Nat) (hv : v < nv) :
    deleteAux (.node id nv h b l r) v ctr =
      ((rebalance (.node id nv
          (1 + max (heightOf (deleteAux l v ctr).1) (heightOf r))
          ((heightOf (deleteAux l v ctr).1 : Int) - heightOf r)
          (deleteAux l v ctr).1 r)).1,
       (deleteAux l v ctr).2.1,
       .visit id nv :: ((deleteAux l v ctr).2.2 ++
         (rebalance (.node id nv
           (1 + max (heightOf (deleteAux l v ctr).1) (heightOf r))
           ((heightOf (deleteAux l v ctr).1 : Int) - heightOf r)
           (deleteAux l v ctr).1 r)).2)) := by
  cases l <;> cases r <;> (simp only [deleteAux]; rw [if_pos hv]) <;> simp

theorem deleteAux_gt (id : Nat) (nv : Int) (h : Nat) (b : Int) (l r : Tree)
    (v : Int) (ctr : Nat) (hv1 : ¬ v < nv) (hv2 : nv < v) :
    deleteAux (.node id nv h b l r) v ctr =
      ((rebalance (.node id nv
          (1 + max (heightOf l) (heightOf (deleteAux r v ctr).1))
          ((heightOf l : Int) - heightOf (deleteAux r v ctr).1)
          l (deleteAux r v ctr).1)).1,
       (deleteAux r v ctr).2.1,
       .visit id nv :: ((deleteAux r v ctr).2.2 ++
         (rebalance (.node id nv
           (1 + max (heightOf l) (heightOf (deleteAux r v ctr).1))
           ((heightOf l : Int) - heightOf (deleteAux r v ctr).1)
           l (deleteAux r v ctr).1)).2)) := by
  cases l <;> cases r <;> (simp only [deleteAux]; rw [if_neg hv1, if_pos hv2]) <;>
    simp

theorem deleteAux_found_leafL (id : Nat) (nv : Int) (h : Nat) (b : Int)
    (r : Tree) (v : Int) (ctr : Nat) (hv1 : ¬ v < nv) (hv2 : ¬ nv < v) :
    deleteAux (.node id nv h b .leaf r) v ctr =
      (r, ctr, [.visit id nv, .delete id nv]) := by
  cases r <;> (simp only [deleteAux]; rw [if_neg hv1, if_neg hv2]) <;> simp

theorem deleteAux_found_leafR (id li : Nat) (nv lv : Int) (h lh : Nat)
    (b lb : Int) (ll lr : Tree) (v : Int) (ctr : Nat)
    (hv1 : ¬ v < nv) (hv2 : ¬ nv < v) :
    deleteAux (.node id nv h b (.node li lv lh lb ll lr) .leaf) v ctr =
      (.node li lv lh lb ll lr, ctr, [.visit id nv, .delete id nv]) := by
  simp only [deleteAux]
  rw [if_neg hv1, if_neg hv2]

theorem deleteAux_found_two (id li ri : Nat) (nv lv rv : Int)
    (h lh rh2 : Nat) (b lb rb2 : Int) (ll lr rl rr : Tree)
    (v : Int) (ctr : Nat) (hv1 : ¬ v < nv) (hv2 : ¬ nv < v) :
    deleteAux (.node id nv h b (.node li lv lh lb ll lr)
        (.node ri rv rh2 rb2 rl rr)) v ctr =
      ((rebalance (.node (ctr + 1)
          (rootValue (maxNode (.node li lv lh lb ll lr)))
          (1 + max (heightOf (deleteAux (.node li lv lh lb ll lr)
              (rootValue (maxNode (.node li lv lh lb ll lr))) (ctr + 1)).1)
            (heightOf (Tree.node ri rv rh2 rb2 rl rr)))
          ((heightOf (deleteAux (.node li lv lh lb ll lr)
              (rootValue (maxNode (.node li lv lh lb ll lr))) (ctr + 1)).1 : Int)
            - heightOf (Tree.node ri rv rh2 rb2 rl rr))
          (deleteAux (.node li lv lh lb ll lr)
            (rootValue (maxNode (.node li lv lh lb ll lr))) (ctr + 1)).1
          (Tree.node ri rv rh2 rb2 rl rr))).1,
       (deleteAux (.node li lv lh lb ll lr)
         (rootValue (maxNode (.node li lv lh lb ll lr))) (ctr + 1)).2.1,
       .visit id nv :: .delete id nv ::
         (deleteAux (.node li lv lh lb ll lr)
           (rootValue (maxNode (.node li lv lh lb ll lr))) (ctr + 1)).2.2
         ++ [.replace id nv (ctr + 1)
              (rootValue (maxNode (.node li lv lh lb ll lr)))]
         ++ (rebalance (.node (ctr + 1)
            (rootValue (maxNode (.node li lv lh lb ll lr)))
            (1 + max (heightOf (deleteAux (.node li lv lh lb ll lr)
                (rootValue (maxNode (.node li lv lh lb ll lr))) (ctr + 1)).1)
              (heightOf (Tree.node ri rv rh2 rb2 rl rr)))
            ((heightOf (deleteAux (.node li lv lh lb ll lr)
                (rootValue (maxNode (.node li lv lh lb ll lr))) (ctr + 1)).1 : Int)
              - heightOf (Tree.node ri rv rh2 rb2 rl rr))
            (deleteAux (.node li lv lh lb ll lr)
              (rootValue (maxNode (.node li lv lh lb ll lr))) (ctr + 1)).1
            (Tree.node ri rv rh2 rb2 rl rr))).2) := by
  simp only [deleteAux]
  rw [if_neg hv1, if_neg hv2]

/-- Erasing the maximum value and re-appending it is the identity on the
sorted in-order sequence. -/
theorem inorder_erase_max (t : Tree) (ht : t ≠ .leaf)
    (hs : (inorder t).Pairwise (fun a b => a < b)) :
    (inorder t).erase (rootValue (maxNode t)) ++ [rootValue (maxNode t)] =
      inorder t := by
  have hlast := maxNode_getLast t ht
  have hne : inorder t ≠ [] := by
    intro hc; rw [hc] at hlast; exact Option.noConfusion hlast
  have hdec := List.dropLast_append_getLast hne
  have hglv : (inorder t).getLast hne = rootValue (maxNode t) := by
    rw [List.getLast?_eq_getLast _ hne] at hlast
    exact Option.some.inj hlast
  have hnm : rootValue (maxNode t) ∉ (inorder t).dropLast := by
    intro hm
    have hsort := hs
    rw [← hdec, List.pairwise_append] at hsort
    have := hsort.2.2 _ hm ((inorder t).getLast hne) (by simp)
    rw [hglv] at this
    omega
  rw [hglv] at hdec
  rw [← hdec, List.erase_append_right _ hnm, List.erase_cons_head,
    List.append_nil]

/-- Deleting the maximum value of a sorted non-absent subtree records
exactly one `delete` event (the predecessor removal inside a two-child
delete never cascades). -/
theorem deleteMax_countDel (t : Tree) (ctr : Nat) (ht : t ≠ .leaf)
    (hs : (inorder t).Pairwise (fun a b => a < b)) :
    countDel (deleteAux t (rootValue (maxNode t)) ctr).2.2 = 1 := by
  induction t generalizing ctr with
  | leaf => exact absurd rfl ht
  | node id nv h b l r ihl ihr =>
      cases r with
      | leaf =>
          cases l with
          | leaf =>
              simp [deleteAux, maxNode, rootValue, countDel,
                List.countP_cons, List.countP_nil, isDelEv]
          | node li lv lh lb ll lr =>
              simp [deleteAux, maxNode, rootValue, countDel,
                List.countP_cons, List.countP_nil, isDelEv]
      | node ri rv rh2 rbb rl rr =>
          rw [inorder_node] at hs
          obtain ⟨hsl, hsr, hltn, hgtn⟩ := pairwise_split nv _ _ hs
          have hmem : rootValue (maxNode (Tree.node ri rv rh2 rbb rl rr)) ∈
              inorder (Tree.node ri rv rh2 rbb rl rr) :=
            maxNode_mem _ (by simp)
          have hlt : nv < rootValue (maxNode (Tree.node ri rv rh2 rbb rl rr)) :=
            hgtn _ hmem
          have hmx : maxNode (Tree.node id nv h b l
              (Tree.node ri rv rh2 rbb rl rr)) =
              maxNode (Tree.node ri rv rh2 rbb rl rr) := rfl
          rw [hmx]
          rw [deleteAux_gt id nv h b l (Tree.node ri rv rh2 rbb rl rr)
            _ ctr (by omega) hlt]
          dsimp only
          rw [countDel_visit_cons, countDel_append, rebalance_countDel,
            ihr ctr (by simp) hsr]

/-! ## The delete lemma -/

theorem delStepLeft (id : Nat) (nv v : Int) (h : Nat) (b : Int) (l r : Tree)
    (ctr : Nat) (sub : Tree × Nat × List Event)
    (hv1 : v < nv)
    (hfh : h = 1 + max (realHeight l) (realHeight r))
    (hfb : b = (realHeight l : Int) - realHeight r)
    (hfr : fieldsOK r) (har : avlOK r)
    (hba1 : realHeight l ≤ realHeight r + 1)
    (hba2 : realHeight r ≤ realHeight l + 1)
    (hgtn : ∀ y ∈ inorder r, nv < y)
    (P : DelProps l ctr v sub) :
    DelProps (.node id nv h b l r) ctr v
      ((rebalance (.node id nv (1 + max (heightOf sub.1) (heightOf r))
          ((heightOf sub.1 : Int) - heightOf r) sub.1 r)).1,
       sub.2.1,
       .visit id nv :: (sub.2.2 ++
         (rebalance (.node id nv (1 + max (heightOf sub.1) (heightOf r))
           ((heightOf sub.1 : Int) - heightOf r) sub.1 r)).2)) := by
  have eI : heightOf sub.1 = realHeight sub.1 := heightOf_eq_realHeight P.hf
  have eR : heightOf r = realHeight r := heightOf_eq_realHeight hfr
  rw [eI, eR]
  have hge' := P.hge
  have hle' := P.hle
  have R := rebalance_ok id nv (1 + max (realHeight sub.1) (realHeight r))
      ((realHeight sub.1 : Int) - realHeight r) sub.1 r P.hf hfr P.ha har
      rfl rfl (by omega) (by omega)
  have hRge := R.hge
  have hRle := R.hle
  have hnotr : v ∉ (nv :: inorder r) := by
    intro hm
    rcases List.mem_cons.mp hm with h2 | h2
    · omega
    · exact absurd (hgtn v h2) (by omega)
  refine ⟨R.hf, R.ha, ?_, ?_, ?_, ?_, ?_⟩
  · dsimp only
    rw [R.hio, P.hio, inorder_node, erase_append_not_right v _ _ hnotr]
  · dsimp only
    rcases R.hrots with hnil | ⟨k, hk⟩
    · rw [R.hnilEq hnil, realHeight_node, realHeight_node]; omega
    · have hBnot : ¬(-1 ≤ (realHeight sub.1 : Int) - realHeight r ∧
          (realHeight sub.1 : Int) - realHeight r ≤ 1) := by
        intro hsm
        have hcl := R.hsmall hsm.1 hsm.2
        rw [hcl] at hk
        simp at hk
      rw [realHeight_node]
      rcases not_and_or.mp hBnot with hx | hx <;> omega
  · dsimp only
    rw [realHeight_node]
    omega
  · intro hnm
    have hnl : v ∉ inorder l := fun hm =>
      hnm (by rw [inorder_node]; exact List.mem_append_left _ hm)
    obtain ⟨h1, h2, h3⟩ := P.habs hnl
    have hrw : realHeight sub.1 = realHeight l := by rw [h1]
    have hcl := R.hsmall (by omega) (by omega)
    have hEq1 : (rebalance (.node id nv
        (1 + max (realHeight sub.1) (realHeight r))
        ((realHeight sub.1 : Int) - realHeight r) sub.1 r)).1 =
        Tree.node id nv (1 + max (realHeight sub.1) (realHeight r))
        ((realHeight sub.1 : Int) - realHeight r) sub.1 r := by rw [hcl]
    have hEq2 : (rebalance (.node id nv
        (1 + max (realHeight sub.1) (realHeight r))
        ((realHeight sub.1 : Int) - realHeight r) sub.1 r)).2 = [] := by
      rw [hcl]
    refine ⟨?_, h2, ?_⟩
    · dsimp only
      rw [hEq1, h1, hfh, hfb]
    · dsimp only
      rw [hEq2, List.append_nil]
      exact allVisits_cons id nv _ h3
  · dsimp only
    rw [countDel_visit_cons, countDel_append, rebalance_countDel]
    have := P.hdel
    omega

theorem delStepRight (id : Nat) (nv v : Int) (h : Nat) (b : Int) (l r : Tree)
    (ctr : Nat) (sub : Tree × Nat × List Event)
    (hv1 : ¬ v < nv) (hv2 : nv < v)
    (hfh : h = 1 + max (realHeight l) (realHeight r))
    (hfb : b = (realHeight l : Int) - realHeight r)
    (hfl : fieldsOK l) (hal : avlOK l)
    (hba1 : realHeight l ≤ realHeight r + 1)
    (hba2 : realHeight r ≤ realHeight l + 1)
    (hltn : ∀ x ∈ inorder l, x < nv)
    (P : DelProps r ctr v sub) :
    DelProps (.node id nv h b l r) ctr v
      ((rebalance (.node id nv (1 + max (heightOf l) (heightOf sub.1))
          ((heightOf l : Int) - heightOf sub.1) l sub.1)).1,
       sub.2.1,
       .visit id nv :: (sub.2.2 ++
         (rebalance (.node id nv (1 + max (heightOf l) (heightOf sub.1))
           ((heightOf l : Int) - heightOf sub.1) l sub.1)).2)) := by
  have eI : heightOf sub.1 = realHeight sub.1 := heightOf_eq_realHeight P.hf
  have eL : heightOf l = realHeight l := heightOf_eq_realHeight hfl
  rw [eI, eL]
  have hge' := P.hge
  have hle' := P.hle
  have R := rebalance_ok id nv (1 + max (realHeight l) (realHeight sub.1))
      ((realHeight l : Int) - realHeight sub.1) l sub.1 hfl P.hf hal P.ha
      rfl rfl (by omega) (by omega)
  have hRge := R.hge
  have hRle := R.hle
  have hnotl : v ∉ inorder l := fun hm => absurd (hltn v hm) (by omega)
  refine ⟨R.hf, R.ha, ?_, ?_, ?_, ?_, ?_⟩
  · dsimp only
    rw [R.hio, P.hio, inorder_node, List.erase_append_right _ hnotl,
      List.erase_cons_tail (by simp; omega)]
  · dsimp only
    rcases R.hrots with hnil | ⟨k, hk⟩
    · rw [R.hnilEq hnil, realHeight_node, realHeight_node]; omega
    · have hBnot : ¬(-1 ≤ (realHeight l : Int) - realHeight sub.1 ∧
          (realHeight l : Int) - realHeight sub.1 ≤ 1) := by
        intro hsm
        have hcl := R.hsmall hsm.1 hsm.2
        rw [hcl] at hk
        simp at hk
      rw [realHeight_node]
      rcases not_and_or.mp hBnot with hx | hx <;> omega
  · dsimp only
    rw [realHeight_node]
    omega
  · intro hnm
    have hnr : v ∉ inorder r := by
      intro hm
      exact hnm (by
        rw [inorder_node]
        exact List.mem_append_right _ (List.mem_cons_of_mem nv hm))
    obtain ⟨h1, h2, h3⟩ := P.habs hnr
    have hrw : realHeight sub.1 = realHeight r := by rw [h1]
    have hcl := R.hsmall (by omega) (by omega)
    have hEq1 : (rebalance (.node id nv
        (1 + max (realHeight l) (realHeight sub.1))
        ((realHeight l : Int) - realHeight sub.1) l sub.1)).1 =
        Tree.node id nv (1 + max (realHeight l) (realHeight sub.1))
        ((realHeight l : Int) - realHeight sub.1) l sub.1 := by rw [hcl]
    have hEq2 : (rebalance (.node id nv
        (1 + max (realHeight l) (realHeight sub.1))
        ((realHeight l : Int) - realHeight sub.1) l sub.1)).2 = [] := by
      rw [hcl]
    refine ⟨?_, h2, ?_⟩
    · dsimp only
      rw [hEq1, h1, hfh, hfb]
    · dsimp only
      rw [hEq2, List.append_nil]
      exact allVisits_cons id nv _ h3
  · dsimp only
    rw [countDel_visit_cons, countDel_append, rebalance_countDel]
    have := P.hdel
    omega

theorem delStepTwo (id li ri : Nat) (nv lv rv : Int) (h lh rh2 : Nat)
    (b lb rb2 : Int) (ll lr rl rr : Tree) (ctr : Nat)
    (sub : Tree × Nat × List Event)
    (hfh : h = 1 + max (realHeight (.node li lv lh lb ll lr))
      (realHeight (.node ri rv rh2 rb2 rl rr)))
    (hfr : fieldsOK (.node ri rv rh2 rb2 rl rr))
    (har : avlOK (.node ri rv rh2 rb2 rl rr))
    (hba1 : realHeight (Tree.node li lv lh lb ll lr) ≤
      realHeight (Tree.node ri rv rh2 rb2 rl rr) + 1)
    (hba2 : realHeight (Tree.node ri rv rh2 rb2 rl rr) ≤
      realHeight (Tree.node li lv lh lb ll lr) + 1)
    (hltn : ∀ x ∈ inorder (Tree.node li lv lh lb ll lr), x < nv)
    (hsl : (inorder (Tree.node li lv lh lb ll lr)).Pairwise
      (fun a b => a < b))
    (P : DelProps (.node li lv lh lb ll lr) (ctr + 1)
      (rootValue (maxNode (.node li lv lh lb ll lr))) sub)
    (hsubdel : countDel sub.2.2 = 1) :
    DelProps (.node id nv h b (.node li lv lh lb ll lr)
        (.node ri rv rh2 rb2 rl rr)) ctr nv
      ((rebalance (.node (ctr + 1)
          (rootValue (maxNode (.node li lv lh lb ll lr)))
          (1 + max (heightOf sub.1)
            (heightOf (Tree.node ri rv rh2 rb2 rl rr)))
          ((heightOf sub.1 : Int) -
            heightOf (Tree.node ri rv rh2 rb2 rl rr))
          sub.1 (Tree.node ri rv rh2 rb2 rl rr))).1,
       sub.2.1,
       .visit id nv :: .delete id nv :: sub.2.2
         ++ [.replace id nv (ctr + 1)
              (rootValue (maxNode (.node li lv lh lb ll lr)))]
         ++ (rebalance (.node (ctr + 1)
            (rootValue (maxNode (.node li lv lh lb ll lr)))
            (1 + max (heightOf sub.1)
              (heightOf (Tree.node ri rv rh2 rb2 rl rr)))
            ((heightOf sub.1 : Int) -
              heightOf (Tree.node ri rv rh2 rb2 rl rr))
            sub.1 (Tree.node ri rv rh2 rb2 rl rr))).2) := by
  have eI : heightOf sub.1 = realHeight sub.1 := heightOf_eq_realHeight P.hf
  have eR : heightOf (Tree.node ri rv rh2 rb2 rl rr) =
      realHeight (Tree.node ri rv rh2 rb2 rl rr) := heightOf_eq_realHeight hfr
  rw [eI, eR]
  have hge' := P.hge
  have hle' := P.hle
  have R := rebalance_ok (ctr + 1)
      (rootValue (maxNode (.node li lv lh lb ll lr)))
      (1 + max (realHeight sub.1)
        (realHeight (Tree.node ri rv rh2 rb2 rl rr)))
      ((realHeight sub.1 : Int) -
        realHeight (Tree.node ri rv rh2 rb2 rl rr))
      sub.1 (Tree.node ri rv rh2 rb2 rl rr) P.hf hfr P.ha har
      rfl rfl (by omega) (by omega)
  have hRge := R.hge
  have hRle := R.hle
  have hl0ne : (Tree.node li lv lh lb ll lr) ≠ Tree.leaf := by simp
  have hmax := inorder_erase_max (Tree.node li lv lh lb ll lr) hl0ne hsl
  have hnotin : nv ∉ inorder (Tree.node li lv lh lb ll lr) := fun hm =>
    absurd (hltn nv hm) (by omega)
  have houter : realHeight (Tree.node id nv h b (Tree.node li lv lh lb ll lr)
      (Tree.node ri rv rh2 rb2 rl rr)) =
      1 + max (realHeight (Tree.node li lv lh lb ll lr))
        (realHeight (Tree.node ri rv rh2 rb2 rl rr)) := rfl
  have hinner : realHeight (Tree.node (ctr + 1)
      (rootValue (maxNode (Tree.node li lv lh lb ll lr)))
      (1 + max (realHeight sub.1)
        (realHeight (Tree.node ri rv rh2 rb2 rl rr)))
      ((realHeight sub.1 : Int) -
        realHeight (Tree.node ri rv rh2 rb2 rl rr))
      sub.1 (Tree.node ri rv rh2 rb2 rl rr)) =
      1 + max (realHeight sub.1)
        (realHeight (Tree.node ri rv rh2 rb2 rl rr)) := rfl
  refine ⟨R.hf, R.ha, ?_, ?_, ?_, ?_, ?_⟩
  · dsimp only
    rw [R.hio, P.hio]
    conv_rhs => rw [inorder_node]
    rw [List.erase_append_right _ hnotin, List.erase_cons_head]
    conv_rhs => rw [← hmax]
    simp [List.append_assoc]
  · dsimp only
    rcases R.hrots with hnil | ⟨k, hk⟩
    · rw [R.hnilEq hnil]
      omega
    · have hBnot : ¬(-1 ≤ (realHeight sub.1 : Int) -
          realHeight (Tree.node ri rv rh2 rb2 rl rr) ∧
          (realHeight sub.1 : Int) -
          realHeight (Tree.node ri rv rh2 rb2 rl rr) ≤ 1) := by
        intro hsm
        have hcl := R.hsmall hsm.1 hsm.2
        rw [hcl] at hk
        simp at hk
      rcases not_and_or.mp hBnot with hx | hx <;> omega
  · dsimp only
    omega
  · intro hnm
    exact absurd (by
      rw [inorder_node]
      exact List.mem_append_right _ (List.mem_cons_self _ _)) hnm
  · dsimp only
    have h0 := rebalance_countDel (Tree.node (ctr + 1)
      (rootValue (maxNode (Tree.node li lv lh lb ll lr)))
      (1 + max (realHeight sub.1)
        (realHeight (Tree.node ri rv rh2 rb2 rl rr)))
      ((realHeight sub.1 : Int) -
        realHeight (Tree.node ri rv rh2 rb2 rl rr))
      sub.1 (Tree.node ri rv rh2 rb2 rl rr))
    simp only [countDel_visit_cons, countDel_del_cons, countDel_append,
      h0, hsubdel]
    simp [countDel, List.countP_cons, List.countP_nil, isDelEv]
    all_goals omega

theorem deleteAux_ok (t : Tree) (v : Int) (ctr : Nat)
    (hf : fieldsOK t) (ha : avlOK t)
    (hs : (inorder t).Pairwise (fun a b => a < b)) :
    DelProps t ctr v (deleteAux t v ctr) := by
  induction t generalizing ctr v with
  | leaf =>
      refine ⟨trivial, trivial, by simp [deleteAux, inorder],
        Nat.le_succ _, le_refl _,
        fun _ => ⟨rfl, rfl, allVisits_nil⟩, by simp [deleteAux, countDel]⟩
  | node id nv h b l r ihl ihr =>
      obtain ⟨hfh, hfb, hfl, hfr⟩ := hf
      obtain ⟨hba1, hba2, hal, har⟩ := ha
      rw [inorder_node] at hs
      obtain ⟨hsl, hsr, hltn, hgtn⟩ := pairwise_split nv _ _ hs
      by_cases hv1 : v < nv
      · rw [deleteAux_lt id nv h b l r v ctr hv1]
        exact delStepLeft id nv v h b l r ctr (deleteAux l v ctr) hv1
          hfh hfb hfr har hba1 hba2 hgtn (ihl v ctr hfl hal hsl)
      · by_cases hv2 : nv < v
        · rw [deleteAux_gt id nv h b l r v ctr hv1 hv2]
          exact delStepRight id nv v h b l r ctr (deleteAux r v ctr) hv1 hv2
            hfh hfb hfl hal hba1 hba2 hltn (ihr v ctr hfr har hsr)
        · have hveq : v = nv := by omega
          subst hveq
          cases l with
          | leaf =>
              rw [deleteAux_found_leafL id v h b r v ctr (by omega) (by omega)]
              refine ⟨hfr, har, ?_, ?_, ?_, ?_, ?_⟩
              · dsimp only
                rw [inorder_node]
                simp [inorder, List.erase_cons_head]
              · dsimp only
                simp only [realHeight]
                omega
              · dsimp only
                simp only [realHeight]
                omega
              · intro hnm
                exact absurd (by
                  rw [inorder_node]
                  exact List.mem_append_right _ (List.mem_cons_self _ _)) hnm
              · dsimp only
                simp [countDel, List.countP_cons, List.countP_nil, isDelEv]
          | node li lv lh lb ll lr =>
              cases r with
              | leaf =>
                  rw [deleteAux_found_leafR id li v lv h lh b lb ll lr v ctr
                    (by omega) (by omega)]
                  have hnotin : v ∉ inorder (Tree.node li lv lh lb ll lr) :=
                    fun hm => absurd (hltn v hm) (by omega)
                  refine ⟨hfl, hal, ?_, ?_, ?_, ?_, ?_⟩
                  · dsimp only
                    conv_rhs => rw [inorder_node]
                    rw [List.erase_append_right _ hnotin,
                      List.erase_cons_head]
                    simp [inorder]
                  · dsimp only
                    simp only [realHeight]
                    omega
                  · dsimp only
                    simp only [realHeight]
                    omega
                  · intro hnm
                    exact absurd (by
                      rw [inorder_node]
                      exact List.mem_append_right _ (List.mem_cons_self _ _))
                      hnm
                  · dsimp only
                    simp [countDel, List.countP_cons, List.countP_nil,
                      isDelEv]
              | node ri rv rh2 rbb rl rr =>
                  rw [deleteAux_found_two id li ri v lv rv h lh rh2 b lb rbb
                    ll lr rl rr v ctr (by omega) (by omega)]
                  exact delStepTwo id li ri v lv rv h lh rh2 b lb rbb
                    ll lr rl rr ctr
                    (deleteAux (.node li lv lh lb ll lr)
                      (rootValue (maxNode (.node li lv lh lb ll lr)))
                      (ctr + 1))
                    hfh hfr har hba1 hba2 hltn hsl
                    (ihl (rootValue (maxNode (.node li lv lh lb ll lr)))
                      (ctr + 1) hfl hal hsl)
                    (deleteMax_countDel (.node li lv lh lb ll lr) (ctr + 1)
                      (by simp) hsl)

/-! ## Top-level operation lemmas -/

theorem insert_ok (a : AVLTree) (v : Int) (h : Inv a) :
    Inv (a.insert v).1 ∧
    inorder (a.insert v).1.root = insList v (inorder a.root) ∧
    countRot (a.insert v).2 ≤ 1 ∧
    (v ∈ inorder a.root →
      (a.insert v).1 = a ∧ countRot (a.insert v).2 = 0 ∧
      AllVisits (a.insert v).2) := by
  obtain ⟨rt, c⟩ := a
  obtain ⟨hf, ha, hs⟩ := h
  have P := insertAux_ok rt v c hf ha hs
  have hU := updateHB_eq (insertAux rt v c).1 P.hf
  simp only [AVLTree.insert, hU]
  refine ⟨⟨P.hf, P.ha, ?_⟩, P.hio, P.hrle, ?_⟩
  · dsimp only
    rw [P.hio]
    exact sorted_insList v _ hs
  · intro hm
    obtain ⟨h1, h2, h3⟩ := P.hdup hm
    refine ⟨?_, allVisits_countRot _ h3, h3⟩
    dsimp only
    rw [h1, h2]

theorem delete_ok (a : AVLTree) (v : Int) (h : Inv a) :
    Inv (a.delete v).1 ∧
    inorder (a.delete v).1.root = (inorder a.root).erase v ∧
    countDel (a.delete v).2 ≤ 2 ∧
    (v ∉ inorder a.root →
      (a.delete v).1 = a ∧ AllVisits (a.delete v).2) := by
  obtain ⟨rt, c⟩ := a
  obtain ⟨hf, ha, hs⟩ := h
  have P := deleteAux_ok rt v c hf ha hs
  have hfst : (AVLTree.delete ⟨rt, c⟩ v).1 =
      ⟨(deleteAux rt v c).1, (deleteAux rt v c).2.1⟩ := by
    simp only [AVLTree.delete]
    cases hres : (deleteAux rt v c).1 with
    | leaf => simp [hres]
    | node i vv hh bb l r =>
        have hu := updateHB_eq (Tree.node i vv hh bb l r)
          (by rw [← hres]; exact P.hf)
        simp [hres, hu]
  have hsnd : (AVLTree.delete ⟨rt, c⟩ v).2 = (deleteAux rt v c).2.2 := rfl
  refine ⟨⟨?_, ?_, ?_⟩, ?_, ?_, ?_⟩
  · rw [hfst]; exact P.hf
  · rw [hfst]; exact P.ha
  · rw [hfst]
    dsimp only
    rw [P.hio]
    exact List.Pairwise.sublist (List.erase_sublist v _) hs
  · rw [hfst]
    dsimp only
    exact P.hio
  · rw [hsnd]; exact P.hdel
  · intro hnm
    obtain ⟨h1, h2, h3⟩ := P.habs hnm
    refine ⟨?_, ?_⟩
    · rw [hfst, h1, h2]
    · rw [hsnd]; exact h3

theorem runOp_ok (a : AVLTree) (op : Op) (h : Inv a) :
    Inv (runOp a op) ∧
    inorder (runOp a op).root = stepList (inorder a.root) op := by
  cases op with
  | ins v =>
      have hi := insert_ok a v h
      exact ⟨hi.1, hi.2.1⟩
  | del v =>
      have hd := delete_ok a v h
      exact ⟨hd.1, hd.2.1⟩

theorem runOps_ok (ops : List Op) :
    Inv (runOps ops) ∧ inorder (runOps ops).root = modelList ops := by
  suffices hgen : ∀ (ops : List Op) (a : AVLTree) (xs : List Int), Inv a →
      inorder a.root = xs →
      Inv (ops.foldl runOp a) ∧
      inorder (ops.foldl runOp a).root = ops.foldl stepList xs by
    exact hgen ops emptyAVL [] ⟨trivial, trivial, List.Pairwise.nil⟩ rfl
  intro ops
  induction ops with
  | nil => exact fun a xs h1 h2 => ⟨h1, h2⟩
  | cons op ops ih =>
      intro a xs h1 h2
      have hstep := runOp_ok a op h1
      exact ih (runOp a op) (stepList xs op) hstep.1 (by rw [hstep.2, h2])

theorem mem_foldl_step (v : Int) (ops : List Op) (xs : List Int)
    (hs : xs.Pairwise (fun a b => a < b)) :
    (ops.foldl stepList xs).Pairwise (fun a b => a < b) ∧
    (v ∈ ops.foldl stepList xs ↔
      ops.foldl (presentStep v) (decide (v ∈ xs)) = true) := by
  induction ops generalizing xs with
  | nil => exact ⟨hs, by simp⟩
  | cons op ops ih =>
      have hs' : (stepList xs op).Pairwise (fun a b => a < b) := by
        cases op with
        | ins w => exact sorted_insList w xs hs
        | del w => exact List.Pairwise.sublist (List.erase_sublist w xs) hs
      have hd : decide (v ∈ stepList xs op) =
          presentStep v (decide (v ∈ xs)) op := by
        cases op with
        | ins w =>
            simp only [stepList, presentStep]
            by_cases hw : w = v
            · subst hw; simp [mem_insList]
            · rw [if_neg hw, decide_eq_decide, mem_insList]
              constructor
              · rintro (hx | hx)
                · exact absurd hx.symm hw
                · exact hx
              · exact fun hx => Or.inr hx
        | del w =>
            have hnd : xs.Nodup := List.Sorted.nodup hs
            simp only [stepList, presentStep]
            by_cases hw : w = v
            · subst hw; simp [List.Nodup.mem_erase_iff hnd]
            · rw [if_neg hw, decide_eq_decide, List.Nodup.mem_erase_iff hnd]
              constructor
              · exact fun hx => hx.2
              · exact fun hx => ⟨fun hc => hw hc.symm, hx⟩
      rw [List.foldl_cons, List.foldl_cons, ← hd]
      exact ih (stepList xs op) hs'

/-! ## Find lemmas -/

theorem findNode_val (t : Tree) (v : Int) (n : Tree)
    (h : findNode t v = some n) : rootValue n = v := by
  induction t with
  | leaf => exact Option.noConfusion h
  | node id nv hh bb l r ihl ihr =>
      simp only [findNode] at h
      by_cases h1 : v = nv
      · rw [if_pos h1] at h
        rw [← Option.some.inj h, rootValue, h1]
      · rw [if_neg h1] at h
        by_cases h2 : v < nv
        · rw [if_pos h2] at h; exact ihl h
        · rw [if_neg h2] at h; exact ihr h

theorem findNode_isSome_iff (t : Tree) (v : Int)
    (hs : (inorder t).Pairwise (fun a b => a < b)) :
    (findNode t v).isSome = true ↔ v ∈ inorder t := by
  induction t with
  | leaf => simp [findNode, inorder]
  | node id nv hh bb l r ihl ihr =>
      rw [inorder_node] at hs
      obtain ⟨hsl, hsr, hltn, hgtn⟩ := pairwise_split nv _ _ hs
      simp only [findNode]
      by_cases h1 : v = nv
      · rw [if_pos h1]
        subst h1
        simp only [Option.isSome_some, true_iff]
        exact List.mem_append_right _ (List.mem_cons_self _ _)
      · rw [if_neg h1]
        by_cases h2 : v < nv
        · rw [if_pos h2, ihl hsl]
          constructor
          · exact fun hm => List.mem_append_left _ hm
          · intro hm
            rcases List.mem_append.mp hm with hx | hx
            · exact hx
            · rcases List.mem_cons.mp hx with hy | hy
              · exact absurd hy h1
              · exact absurd (hgtn v hy) (by omega)
        · rw [if_neg h2, ihr hsr]
          constructor
          · exact fun hm =>
              List.mem_append_right _ (List.mem_cons_of_mem nv hm)
          · intro hm
            rcases List.mem_append.mp hm with hx | hx
            · exact absurd (hltn v hx) (by omega)
            · rcases List.mem_cons.mp hx with hy | hy
              · exact absurd hy h1
              · exact hy

/-! ## Claim theorems -/

/-- C1 (counterexample): the claim says every trace returned by one delete
call contains at most one `delete` event; on the spec's own scenario tree
(inserting 20, 10, 30, 5, 15) the trace of `delete 20` contains two
`delete` events — one for the target and one emitted by the nested
recursive removal of the in-order predecessor. -/
theorem C1_counterexample : countDel (t5.delete 20).2 = 2 := by decide

/-- C1 (amended): the events appended by the nested recursive removal of
the in-order predecessor include one further `delete` event besides visits
and rotations, so every trace returned by one delete call on an invariant
tree contains at most two `delete` events. -/
theorem C1_delete_count (a : AVLTree) (v : Int) (h : Inv a) :
    countDel (a.delete v).2 ≤ 2 :=
  (delete_ok a v h).2.2.1

theorem C1_delete_count_witness :
    Inv t5 ∧ countDel (t5.delete 20).2 ≤ 2 :=
  ⟨by decide, C1_delete_count t5 20 (by decide)⟩

/-- C2: after any sequence of inserts and deletes from the empty tree,
`isBalanced` returns `true` (every reachable node's stored child heights
differ by at most one) and every stored height equals one plus the maximum
of the children's stored heights, absent children counting as 0. -/
theorem C2_balanced_heights (ops : List Op) :
    isBalanced (runOps ops).root = true ∧
    storedHeightsOK (runOps ops).root := by
  obtain ⟨⟨hf, ha, _⟩, _⟩ := runOps_ok ops
  exact ⟨isBalanced_of_ok hf ha, fieldsOK_imp_storedHeightsOK hf⟩

/-- C3: after any sequence of inserts and deletes from the empty tree, the
in-order traversal is strictly ascending and contains exactly the values
that were inserted and not subsequently deleted. -/
theorem C3_inorder_present (ops : List Op) (v : Int) :
    (inorder (runOps ops).root).Pairwise (fun a b => a < b) ∧
    (v ∈ inorder (runOps ops).root ↔ presentIn ops v = true) := by
  obtain ⟨hInv, hio⟩ := runOps_ok ops
  have hio2 : inorder (runOps ops).root = ops.foldl stepList [] := hio
  have hm := mem_foldl_step v ops [] List.Pairwise.nil
  rw [hio2]
  refine ⟨hm.1, ?_⟩
  rw [hm.2]
  have hdec : decide (v ∈ ([] : List Int)) = false := by simp
  rw [hdec]
  exact Iff.rfl

/-- C4: deleting a value absent from an invariant tree is a silent no-op:
the state (root and id counter) is unchanged and the trace consists only
of `visit` events — in particular no `delete`, `replace` or `rotate`. -/
theorem C4_delete_absent (a : AVLTree) (v : Int) (h : Inv a)
    (hv : v ∉ inorder a.root) :
    (a.delete v).1 = a ∧ AllVisits (a.delete v).2 :=
  (delete_ok a v h).2.2.2 hv

theorem C4_delete_absent_witness :
    (Inv t5 ∧ (99 : Int) ∉ inorder t5.root) ∧
    (t5.delete 99).1 = t5 ∧ AllVisits (t5.delete 99).2 :=
  ⟨⟨by decide, by decide⟩, C4_delete_absent t5 99 (by decide) (by decide)⟩

/-- C5: inserting an already-present value into an invariant tree is a
silent no-op: the state (root and id counter, hence serialized shape and
in-order sequence) is unchanged and the trace consists only of the `visit`
events made before detecting the duplicate — in particular no `create`. -/
theorem C5_insert_duplicate (a : AVLTree) (v : Int) (h : Inv a)
    (hv : v ∈ inorder a.root) :
    (a.insert v).1 = a ∧ AllVisits (a.insert v).2 := by
  have hi := (insert_ok a v h).2.2.2 hv
  exact ⟨hi.1, hi.2.2⟩

theorem C5_insert_duplicate_witness :
    (Inv t5 ∧ (20 : Int) ∈ inorder t5.root) ∧
    (t5.insert 20).1 = t5 ∧ AllVisits (t5.insert 20).2 :=
  ⟨⟨by decide, by decide⟩, C5_insert_duplicate t5 20 (by decide) (by decide)⟩

/-- C6: `_rebalance` follows the exact four-way case analysis on the
stored balance factor — LL (single right rotation) when `balance > 1` and
`balance(left) ≥ 0`, LR when `balance > 1` and `balance(left) < 0`, RR
(single left rotation) when `balance < -1` and `balance(right) ≤ 0`, RL
when `balance < -1` and `balance(right) > 0` — and a node with balance in
{-1, 0, 1} is returned unchanged with no `rotate` event appended. -/
theorem C6_rebalance_cases (id : Nat) (v : Int) (h : Nat) (b : Int)
    (l r : Tree) :
    (1 < b → 0 ≤ getBalance l →
      rebalance (.node id v h b l r) =
        (rightRotate (.node id v h b l r), [.rotate .LL id v])) ∧
    (1 < b → getBalance l < 0 →
      rebalance (.node id v h b l r) =
        (rightRotate (.node id v h b (leftRotate l) r),
          [.rotate .LR id v])) ∧
    (b < -1 → getBalance r ≤ 0 →
      rebalance (.node id v h b l r) =
        (leftRotate (.node id v h b l r), [.rotate .RR id v])) ∧
    (b < -1 → 0 < getBalance r →
      rebalance (.node id v h b l r) =
        (leftRotate (.node id v h b l (rightRotate r)),
          [.rotate .RL id v])) ∧
    (-1 ≤ b → b ≤ 1 → rebalance (.node id v h b l r) =
      (.node id v h b l r, [])) := by
  refine ⟨?_, ?_, ?_, ?_, ?_⟩
  · intro h1 h2
    simp only [rebalance]
    rw [if_pos h1, if_pos h2]
  · intro h1 h2
    simp only [rebalance]
    rw [if_pos h1, if_neg (by omega)]
  · intro h1 h2
    simp only [rebalance]
    rw [if_neg (by omega), if_pos h1, if_pos h2]
  · intro h1 h2
    simp only [rebalance]
    rw [if_neg (by omega), if_pos h1, if_neg (by omega)]
  · intro h1 h2
    simp only [rebalance]
    rw [if_neg (by omega), if_neg (by omega)]

theorem C6_rebalance_cases_witness :
    (rebalance (.node 1 5 3 2 (.node 2 3 1 0 .leaf .leaf) .leaf) =
      (rightRotate (.node 1 5 3 2 (.node 2 3 1 0 .leaf .leaf) .leaf),
        [.rotate .LL 1 5])) ∧
    (rebalance (.node 1 5 3 2
        (.node 2 3 2 (-1) .leaf (.node 3 4 1 0 .leaf .leaf)) .leaf) =
      (rightRotate (.node 1 5 3 2
        (leftRotate (.node 2 3 2 (-1) .leaf (.node 3 4 1 0 .leaf .leaf)))
        .leaf), [.rotate .LR 1 5])) ∧
    (rebalance (.node 1 5 3 (-2) .leaf (.node 2 7 1 0 .leaf .leaf)) =
      (leftRotate (.node 1 5 3 (-2) .leaf (.node 2 7 1 0 .leaf .leaf)),
        [.rotate .RR 1 5])) ∧
    (rebalance (.node 1 5 3 (-2) .leaf
        (.node 2 7 2 1 (.node 3 6 1 0 .leaf .leaf) .leaf)) =
      (leftRotate (.node 1 5 3 (-2) .leaf
        (rightRotate (.node 2 7 2 1 (.node 3 6 1 0 .leaf .leaf) .leaf))),
        [.rotate .RL 1 5])) ∧
    (rebalance (.node 1 5 1 0 .leaf .leaf) =
      (.node 1 5 1 0 .leaf .leaf, [])) :=
  ⟨(C6_rebalance_cases 1 5 3 2 (.node 2 3 1 0 .leaf .leaf) .leaf).1
      (by decide) (by decide),
   (C6_rebalance_cases 1 5 3 2
      (.node 2 3 2 (-1) .leaf (.node 3 4 1 0 .leaf .leaf)) .leaf).2.1
      (by decide) (by decide),
   (C6_rebalance_cases 1 5 3 (-2) .leaf (.node 2 7 1 0 .leaf .leaf)).2.2.1
      (by decide) (by decide),
   (C6_rebalance_cases 1 5 3 (-2) .leaf
      (.node 2 7 2 1 (.node 3 6 1 0 .leaf .leaf) .leaf)).2.2.2.1
      (by decide) (by decide),
   (C6_rebalance_cases 1 5 1 0 .leaf .leaf).2.2.2.2
      (by decide) (by decide)⟩

/-- C7: on the tree built by inserting 20, 10, 30, 5, 15, `delete 20`
produces exactly one `replace` event, whose new node carries value 15 (the
maximum of the left subtree) and the fresh id 6 — not equal to any of the
five previously assigned ids — and the resulting tree is balanced with
in-order sequence [5, 10, 15, 30]. -/
theorem C7_scenario :
    (t5.delete 20).2.filter isReplEv = [.replace 1 20 6 15] ∧
    countRepl (t5.delete 20).2 = 1 ∧
    rootValue (maxNode (leftOf t5.root)) = 15 ∧
    t5.ctr = 5 ∧
    (6 : Nat) ∉ idsOf t5.root ∧
    isBalanced (t5.delete 20).1.root = true ∧
    inorder (t5.delete 20).1.root = [5, 10, 15, 30] := by decide

/-- C8: on any tree whose in-order sequence is strictly ascending, `find`
returns a node — necessarily carrying the queried value — exactly when the
value is present, and returns `none` otherwise (in particular on the empty
tree); being a pure function of the tree it produces no trace events and
performs no mutation. -/
theorem C8_find_correct (t : Tree) (v : Int)
    (hs : (inorder t).Pairwise (fun a b => a < b)) :
    ((findNode t v).isSome = true ↔ v ∈ inorder t) ∧
    (∀ n, findNode t v = some n → rootValue n = v) ∧
    findNode .leaf v = none :=
  ⟨findNode_isSome_iff t v hs, fun n h => findNode_val t v n h, rfl⟩

theorem C8_find_correct_witness :
    (inorder t5.root).Pairwise (fun a b => a < b) ∧
    (((findNode t5.root 15).isSome = true ↔ (15 : Int) ∈ inorder t5.root) ∧
      (∀ n, findNode t5.root 15 = some n → rootValue n = 15) ∧
      findNode .leaf 15 = none) :=
  ⟨by decide, C8_find_correct t5.root 15 (by decide)⟩

/-- C9: every trace returned by insert on an invariant tree contains at
most one `rotate` event, and a duplicate insert records none. -/
theorem C9_insert_rotations (a : AVLTree) (v : Int) (h : Inv a) :
    countRot (a.insert v).2 ≤ 1 ∧
    (v ∈ inorder a.root → countRot (a.insert v).2 = 0) := by
  have hi := insert_ok a v h
  exact ⟨hi.2.2.1, fun hm => (hi.2.2.2 hm).2.1⟩

theorem C9_insert_rotations_witness :
    Inv t5 ∧
    (countRot (t5.insert 25).2 ≤ 1 ∧
      ((25 : Int) ∈ inorder t5.root → countRot (t5.insert 25).2 = 0)) :=
  ⟨by decide, C9_insert_rotations t5 25 (by decide)⟩

/-- C10: each single rotation preserves the in-order sequence of nodes of
its subtree: `_rightRotate` on a root with a non-absent left child and
`_leftRotate` on a root with a non-absent right child return subtrees with
exactly the same (id, value) in-order sequence — no node or value is
created, destroyed or reordered. -/
theorem C10_rotations_inorder :
    (∀ (id : Nat) (v : Int) (h : Nat) (b : Int) (l r : Tree),
      l ≠ Tree.leaf →
      inorderNodes (rightRotate (.node id v h b l r)) =
        inorderNodes (.node id v h b l r)) ∧
    (∀ (id : Nat) (v : Int) (h : Nat) (b : Int) (l r : Tree),
      r ≠ Tree.leaf →
      inorderNodes (leftRotate (.node id v h b l r)) =
        inorderNodes (.node id v h b l r)) := by
  constructor
  · intro id v h b l r hl
    cases l with
    | leaf => exact absurd rfl hl
    | node li lv lh lb la lt2 =>
        simp [rightRotate, inorderNodes, List.append_assoc]
  · intro id v h b l r hr
    cases r with
    | leaf => exact absurd rfl hr
    | node ri rv rhh rbb rt2 rb3 =>
        simp [leftRotate, inorderNodes, List.append_assoc]

theorem C10_rotations_inorder_witness :
    inorderNodes (rightRotate
      (.node 1 5 3 2 (.node 2 3 1 0 .leaf .leaf) .leaf)) =
      inorderNodes (.node 1 5 3 2 (.node 2 3 1 0 .leaf .leaf) .leaf) ∧
    inorderNodes (leftRotate
      (.node 1 5 3 (-2) .leaf (.node 2 7 1 0 .leaf .leaf))) =
      inorderNodes (.node 1 5 3 (-2) .leaf (.node 2 7 1 0 .leaf .leaf)) :=
  ⟨C10_rotations_inorder.1 1 5 3 2 (.node 2 3 1 0 .leaf .leaf) .leaf
      (by decide),
   C10_rotations_inorder.2 1 5 3 (-2) .leaf (.node 2 7 1 0 .leaf .leaf)
      (by decide)⟩

end AVLViz
